import Mathlib

/-!
Verification of the sharded fungible-value ledger of `awesome-sails`
(`utils/src/map.rs`, `utils/src/math.rs`, `services/vft/utils/src/balances.rs`,
`crates/vft-pack/vft/utils/src/allowances.rs`).

Shallow embedding conventions:
* `usize` values are `Nat` below `2 ^ 64`; `u32` is `Nat` below `2 ^ 32`;
  the wide public integer `U256` is `Nat` bounded by `U256MAX`; the narrow
  stored amount type `T` (`CustomUint<80,2>` for balances, `CustomUint<72,2>`
  for allowances) is `Nat` bounded by a parameter `tmax` / with MAX sentinel
  `amax`.
* a `hashbrown::HashMap` shard is an association list with unique keys
  (uniqueness is an invariant, proved, not assumed); `HashMap::new()` has
  capacity `0` and `HashMap::with_capacity(c)` has capacity exactly `c` for
  the capacity shapes the code admits (that is the point of
  `is_valid_capacity`), so a shard's live capacity is `0` before
  `alloc_next_shard` touches it and its declared capacity afterwards.
* `&mut self` methods become state-threading functions returning the state
  at the point of return, so an early `Err` return carries exactly the state
  the Rust method leaves behind; a Rust `unreachable!()` / infallible unwrap
  failure is modelled by an explicit `panic` outcome.
-/

/-! ## Association-list model of one hashbrown shard -/

set_option linter.unusedSectionVars false

variable {K V : Type} [DecidableEq K]

/-- Lookup of the (first) entry with the given key, `HashMap::get`. -/
def lookupA : List (K × V) → K → Option V
  | [], _ => none
  | (k2, v) :: t, k => if k2 = k then some v else lookupA t k

/-- `HashMap::insert`: replace the value of an existing key, else append. -/
def insertA : List (K × V) → K → V → List (K × V)
  | [], k, v => [(k, v)]
  | (k2, v2) :: t, k, v => if k2 = k then (k, v) :: t else (k2, v2) :: insertA t k v

/-- `HashMap::remove`: drop the (first) entry with the given key. -/
def removeA : List (K × V) → K → List (K × V)
  | [], _ => []
  | (k2, v2) :: t, k => if k2 = k then t else (k2, v2) :: removeA t k

/-- One shard of a `ShardedMap`: the backing `HashMap` contents, the declared
capacity, and whether the backing map has been materialized
(`HashMap::with_capacity`) by `alloc_next_shard`. -/
structure Shard (K V : Type) where
  entries : List (K × V)
  cap : Nat
  alloc : Bool
deriving DecidableEq

/-- Live capacity of the shard's backing `HashMap`: `0` for `HashMap::new()`,
the declared capacity once allocated. -/
def Shard.capacity (sh : Shard K V) : Nat :=
  if sh.alloc then sh.cap else 0

/-- The `shards` vector of a `ShardedMap<K, V>`. -/
abbrev SMap (K V : Type) := List (Shard K V)

namespace ShardedMap

/-- Errors of `ShardedMap` operations. -/
inductive Error where
  | capacityOverflow
  | invalidCapacity
deriving DecidableEq

/-- Halving recursion for `usize::trailing_zeros`, structural on a fuel
argument so that it evaluates in the kernel; `fuel = n` always suffices
since a positive number can be halved fewer than `n` times. -/
def tzAux : Nat → Nat → Nat
  | 0, _ => 0
  | fuel + 1, n => if n = 0 then 0 else if n % 2 = 1 then 0 else tzAux fuel (n / 2) + 1

/-- Number of trailing zero bits, `usize::trailing_zeros` (on nonzero input). -/
def trailing_zeros (n : Nat) : Nat := tzAux n n

/-- Halving recursion for `usize::trailing_ones`, structural on a fuel
argument (`fuel = n` suffices). -/
def toAux : Nat → Nat → Nat
  | 0, _ => 0
  | fuel + 1, n => if n % 2 = 1 then toAux fuel (n / 2) + 1 else 0

/-- Number of trailing one bits, `usize::trailing_ones`. -/
def trailing_ones (n : Nat) : Nat := toAux n n

/-- `usize::MAX` for the 64-bit targets the crate is built for. -/
def USIZE_MAX : Nat := 2 ^ 64 - 1

/-- `ShardedMap::is_valid_capacity`. -/
def is_valid_capacity (n : Nat) : Bool :=
  if n = 0 || n = USIZE_MAX then false
  else
    let shift_for := trailing_zeros n
    let m := n >>> shift_for
    if m &&& (m + 1) != 0 then false
    else shift_for = 0 || trailing_ones m ≥ 3

/-- Ascending insertion of `Vec::sort` (modelled by insertion sort). -/
def sortInsert (x : Nat) : List Nat → List Nat
  | [] => [x]
  | y :: t => if x ≤ y then x :: y :: t else y :: sortInsert x t

/-- `Vec::sort` for capacities (ascending). -/
def sortAsc : List Nat → List Nat
  | [] => []
  | x :: t => sortInsert x (sortAsc t)

/-- `ShardedMap::try_new`: validate every capacity, sort, instantiate the
shards in descending capacity order, every backing map unallocated. -/
def try_new (capacities : List Nat) : Except Error (SMap K V) :=
  if capacities.all is_valid_capacity then
    .ok (((sortAsc capacities).reverse).map fun c => ⟨[], c, false⟩)
  else
    .error .invalidCapacity

/-- `ShardedMap::capacity`: total live capacity. -/
def capacity (m : SMap K V) : Nat :=
  (m.map Shard.capacity).sum

/-- `ShardedMap::max_capacity`: total declared capacity. -/
def max_capacity (m : SMap K V) : Nat :=
  (m.map Shard.cap).sum

/-- `ShardedMap::len`. -/
def len (m : SMap K V) : Nat :=
  (m.map fun sh => sh.entries.length).sum

/-- `ShardedMap::has_space`. -/
def has_space (m : SMap K V) : Bool :=
  m.any fun sh => sh.entries.length < sh.capacity

/-- `ShardedMap::has_space_err`. -/
def has_space_err (m : SMap K V) : Except Error Unit :=
  if has_space m then .ok () else .error .capacityOverflow

/-- `ShardedMap::alloc_next_shard`, auxiliary scan: index of the first shard
whose backing map has capacity `0`, materializing it. -/
def allocAux : SMap K V → Option Nat × SMap K V
  | [] => (none, [])
  | sh :: t =>
    if sh.capacity = 0 then (some 0, ⟨[], sh.cap, true⟩ :: t)
    else
      let (r, t2) := allocAux t
      (r.map (· + 1), sh :: t2)

/-- `ShardedMap::alloc_next_shard`: realize the first unallocated shard;
the returned Bool tells whether further unallocated shards remain (the Rust
`idx.is_some_and(|i| i != self.shards.len() - 1)`). -/
def alloc_next_shard (m : SMap K V) : Bool × SMap K V :=
  let (r, m2) := allocAux m
  (match r with
   | some i => decide (i ≠ m.length - 1)
   | none => false, m2)

/-- `ShardedMap::try_append_shard`: declare one more unallocated shard. -/
def try_append_shard (m : SMap K V) (c : Nat) : Except Error (SMap K V) :=
  if is_valid_capacity c then .ok (m ++ [⟨[], c, false⟩])
  else .error .invalidCapacity

/-- `ShardedMap::get` / the scan of `find_map`: first shard holding the key,
returning the shard index and the value. -/
def get (m : SMap K V) (k : K) : Option (Nat × V) :=
  match m with
  | [] => none
  | sh :: t =>
    match lookupA sh.entries k with
    | some v => some (0, v)
    | none => (get t k).map fun p => (p.1 + 1, p.2)

/-- `ShardedMap::get_at` (also the read of `get_mut_at`). -/
def get_at (m : SMap K V) (i : Nat) (k : K) : Option V :=
  match m[i]? with
  | some sh => lookupA sh.entries k
  | none => none

/-- State update through `get_mut` / `get_mut_at` assignment and the raw
`HashMap::insert` into shard `i` (replace the key's value or append). -/
def insertAt (m : SMap K V) (i : Nat) (k : K) (v : V) : SMap K V :=
  match m, i with
  | [], _ => []
  | sh :: t, 0 => { sh with entries := insertA sh.entries k v } :: t
  | sh :: t, i + 1 => sh :: insertAt t i k v

/-- State part of `ShardedMap::remove_at`. -/
def eraseAt (m : SMap K V) (i : Nat) (k : K) : SMap K V :=
  match m, i with
  | [], _ => []
  | sh :: t, 0 => { sh with entries := removeA sh.entries k } :: t
  | sh :: t, i + 1 => sh :: eraseAt t i k

/-- `ShardedMap::remove_at`: removed value (if any) and the new state. -/
def remove_at (m : SMap K V) (i : Nat) (k : K) : Option V × SMap K V :=
  (get_at m i k, eraseAt m i k)

/-- `ShardedMap::remove`: scan the shards, removing from the first shard
that holds the key. -/
def remove (m : SMap K V) (k : K) : Option (Nat × V) × SMap K V :=
  match m with
  | [] => (none, [])
  | sh :: t =>
    match lookupA sh.entries k with
    | some v => (some (0, v), { sh with entries := removeA sh.entries k } :: t)
    | none =>
      let (r, t2) := remove t k
      (r.map fun p => (p.1 + 1, p.2), sh :: t2)

/-- Index of the first shard with spare live capacity (the `available_map`
of `try_insert`, the target of `try_insert_new`). -/
def firstSpace : SMap K V → Option Nat
  | [] => none
  | sh :: t =>
    if sh.entries.length < sh.capacity then some 0
    else (firstSpace t).map (· + 1)

/-- `ShardedMap::try_insert`: replace the value if the key exists in some
shard, else insert into the first shard with spare capacity. -/
def try_insert (m : SMap K V) (k : K) (v : V) :
    Except Error (Nat × Option V × SMap K V) :=
  match get m k with
  | some (i, prev) => .ok (i, some prev, insertAt m i k v)
  | none =>
    match firstSpace m with
    | some i => .ok (i, none, insertAt m i k v)
    | none => .error .capacityOverflow

/-- `ShardedMap::try_insert_new`: insert into the first shard with spare
capacity without scanning for the key (caller guarantees it is absent). -/
def try_insert_new (m : SMap K V) (k : K) (v : V) :
    Except Error (Nat × SMap K V) :=
  match firstSpace m with
  | some i => .ok (i, insertAt m i k v)
  | none => .error .capacityOverflow

/-- `ShardedMap::try_insert_new_at`: insert into the given shard if it has
spare capacity (caller guarantees the key is absent). -/
def try_insert_new_at (m : SMap K V) (i : Nat) (k : K) (v : V) :
    Except Error (SMap K V) :=
  match m[i]? with
  | some sh =>
    if sh.entries.length < sh.capacity then .ok (insertAt m i k v)
    else .error .capacityOverflow
  | none => .error .capacityOverflow

/-- `ShardedMap::clear_shards`. -/
def clear_shards (m : SMap K V) : SMap K V :=
  m.map fun sh => { sh with entries := [] }

end ShardedMap

/-! ## Checked arithmetic (`utils/src/math.rs`) -/

/-- `U256::MAX`. -/
def U256MAX : Nat := 2 ^ 256 - 1

/-- `u32::MAX`. -/
def U32MAX : Nat := 2 ^ 32 - 1

/-- `U256::checked_add`. -/
def uCheckedAdd (a b : Nat) : Option Nat :=
  if a + b ≤ U256MAX then some (a + b) else none

/-- `U256::checked_sub`. -/
def uCheckedSub (a b : Nat) : Option Nat :=
  if b ≤ a then some (a - b) else none

/-- `CustomUint::checked_add` for a stored amount type with maximum `tmax`. -/
def tCheckedAdd (tmax a b : Nat) : Option Nat :=
  if a + b ≤ tmax then some (a + b) else none

/-- `MathError` of `utils/src/math.rs` (payloads carry no data). -/
inductive MathErr where
  | overflow
  | underflow
  | zero
deriving DecidableEq

/-- `NonZero::try_add`: checked addition, then re-validate non-zero. -/
def nzTryAdd (tmax a b : Nat) : Except MathErr Nat :=
  match tCheckedAdd tmax a b with
  | none => .error .overflow
  | some r => if r = 0 then .error .zero else .ok r

/-- `NonZero::try_sub`: checked subtraction, the exact-zero result reported
as the distinct `Zero` case. -/
def nzTrySub (a b : Nat) : Except MathErr Nat :=
  if b ≤ a then
    if a - b = 0 then .error .zero else .ok (a - b)
  else .error .underflow

/-! ## Balances (`services/vft/utils/src/balances.rs`) -/

/-- `BalancesError` (the `Insufficient` variant wraps `UnderflowError`,
`Map` wraps the sharded-map error). -/
inductive BalancesError where
  | belowMinimum
  | insufficient
  | map (e : ShardedMap.Error)
  | overflow
  | zero
deriving DecidableEq

/-- `impl From<MathError> for BalancesError`. -/
def mathToBalances : MathErr → BalancesError
  | .underflow => .insufficient
  | .overflow => .overflow
  | .zero => .zero

/-- Outcome of a `&mut self` Balances operation: `ok` with the returned
value (0 when the Rust return type is `()`), a typed error, or a Rust
panic (`unreachable!()` / infallible unwrap failing). -/
inductive BOut where
  | ok (ret : Nat)
  | err (e : BalancesError)
  | panic
deriving DecidableEq

/-- The `Balances` state: accounts are nonzero `ActorId`s modelled as `Nat`,
amounts are the stored integer type modelled as `Nat`. -/
structure Balances where
  minimum_balance : Nat
  store : SMap Nat Nat
  total : Nat
  unused : Nat
deriving DecidableEq

namespace Balances

/-- `Balances::try_new`. -/
def try_new (capacities : List Nat) (minimum_balance : Nat) :
    Except BalancesError Balances :=
  match ShardedMap.try_new capacities with
  | .error e => .error (.map e)
  | .ok store => .ok ⟨minimum_balance, store, 0, 0⟩

/-- `Balances::set_minimum_balance`. -/
def set_minimum_balance (s : Balances) (m : Nat) : Balances :=
  { s with minimum_balance := m }

/-- `Balances::allocate_next_shard`. -/
def allocate_next_shard (s : Balances) : Bool × Balances :=
  let (b, st) := ShardedMap.alloc_next_shard s.store
  (b, { s with store := st })

/-- `Balances::try_append_shard`. -/
def try_append_shard (s : Balances) (c : Nat) : BOut × Balances :=
  match ShardedMap.try_append_shard s.store c with
  | .error e => (.err (.map e), s)
  | .ok st => (.ok 0, { s with store := st })

/-- Tail of `Balances::burn`: `self.total = unwrap_infallible!(self.total
.checked_sub(value.cast()) ...)` after the per-account mutation. -/
def burnFinish (s : Balances) (value : Nat) : BOut × Balances :=
  match uCheckedSub s.total value with
  | none => (.panic, s)
  | some t => (.ok 0, { s with total := t })

/-- `Balances::burn`. -/
def burn (s : Balances) (account value : Nat) : BOut × Balances :=
  match ShardedMap.get s.store account with
  | none => (.err .insufficient, s)
  | some (idx, balance) =>
    match nzTrySub balance value with
    | .ok remaining =>
      if s.minimum_balance ≤ remaining then
        burnFinish { s with store := ShardedMap.insertAt s.store idx account remaining } value
      else
        match uCheckedAdd s.unused remaining with
        | none => (.err .overflow, s)
        | some unused2 =>
          burnFinish { s with unused := unused2,
                              store := ShardedMap.eraseAt s.store idx account } value
    | .error .zero =>
      burnFinish { s with store := ShardedMap.eraseAt s.store idx account } value
    | .error .overflow => (.err .overflow, s)
    | .error .underflow => (.err .insufficient, s)

/-- `Balances::burn_all`. -/
def burn_all (s : Balances) (account : Nat) : BOut × Balances :=
  match ShardedMap.remove s.store account with
  | (none, _) => (.ok 0, s)
  | (some (_, v), store2) =>
    match uCheckedSub s.total v with
    | none => (.panic, { s with store := store2 })
    | some t => (.ok v, { s with store := store2, total := t })

/-- `Balances::burn_unused`. -/
def burn_unused (s : Balances) : BOut × Balances :=
  match uCheckedSub s.total s.unused with
  | none => (.panic, s)
  | some t => (.ok s.unused, { s with total := t, unused := 0 })

/-- `Balances::mint`. -/
def mint (tmax : Nat) (s : Balances) (account value : Nat) : BOut × Balances :=
  match uCheckedAdd s.total value with
  | none => (.err .overflow, s)
  | some new_total =>
    match ShardedMap.get s.store account with
    | some (idx, balance) =>
      match nzTryAdd tmax balance value with
      | .error e => (.err (mathToBalances e), s)
      | .ok new_balance =>
        if s.minimum_balance ≤ new_balance then
          (.ok 0, { s with store := ShardedMap.insertAt s.store idx account new_balance,
                           total := new_total })
        else (.err .belowMinimum, s)
    | none =>
      if value < s.minimum_balance then (.err .belowMinimum, s)
      else
        match ShardedMap.try_insert_new s.store account value with
        | .error e => (.err (.map e), s)
        | .ok (_, store2) => (.ok 0, { s with store := store2, total := new_total })

/-- The `from` leg of `Balances::transfer`: the planned new `from` balance
(`None` means the entry is to be removed) and the planned new `unused`
(`Some` only on the dust sweep), computed without mutating. -/
def transferFromLeg (s : Balances) (balance_from value : Nat) :
    Except BalancesError (Option Nat × Option Nat) :=
  match nzTrySub balance_from value with
  | .ok remaining =>
    if s.minimum_balance ≤ remaining then .ok (some remaining, none)
    else
      match uCheckedAdd s.unused remaining with
      | none => .error .overflow
      | some unused2 => .ok (none, some unused2)
  | .error .zero => .ok (none, none)
  | .error .overflow => .error .overflow
  | .error .underflow => .error .insufficient

/-- The `to` leg of `Balances::transfer`: update an existing `to` entry in
place, or validate a fresh insertion (capacity checked only when the `from`
slot is not freed, i.e. `keep_from`). Returns the store after the in-place
`to` update and the value still to insert for a brand-new `to`. -/
def transferToLeg (tmax : Nat) (s : Balances) (toA value : Nat) (keep_from : Bool) :
    Except BalancesError (SMap Nat Nat × Option Nat) :=
  match ShardedMap.get s.store toA with
  | some (idx_to, balance_to) =>
    match nzTryAdd tmax balance_to value with
    | .error e => .error (mathToBalances e)
    | .ok new_balance_to =>
      if s.minimum_balance ≤ new_balance_to then
        .ok (ShardedMap.insertAt s.store idx_to toA new_balance_to, none)
      else .error .belowMinimum
  | none =>
    if keep_from && !(ShardedMap.has_space s.store) then .error (.map .capacityOverflow)
    else if value < s.minimum_balance then .error .belowMinimum
    else .ok (s.store, some value)

/-- Commit phase of `Balances::transfer`: apply the `from` mutation (update
in place or remove at the remembered shard index), insert a brand-new `to`
entry, then store the new `unused`. The Rust `unwrap_infallible!` sites
become `panic`. -/
def transferCommit (s : Balances) (idx_from fromA toA : Nat)
    (new_balance_from new_unused : Option Nat)
    (store1 : SMap Nat Nat) (insert_balance_to : Option Nat) : BOut × Balances :=
  match new_balance_from with
  | some nbf =>
    match ShardedMap.get_at store1 idx_from fromA with
    | none => (.panic, { s with store := store1 })
    | some _ =>
      let store2 := ShardedMap.insertAt store1 idx_from fromA nbf
      match insert_balance_to with
      | some bt =>
        match ShardedMap.try_insert_new store2 toA bt with
        | .error _ => (.panic, { s with store := store2 })
        | .ok (_, store3) =>
          (.ok 0, { s with store := store3, unused := new_unused.getD s.unused })
      | none => (.ok 0, { s with store := store2, unused := new_unused.getD s.unused })
  | none =>
    let store2 := ShardedMap.eraseAt store1 idx_from fromA
    match insert_balance_to with
    | some bt =>
      match ShardedMap.try_insert_new_at store2 idx_from toA bt with
      | .error _ => (.panic, { s with store := store2 })
      | .ok store3 =>
        (.ok 0, { s with store := store3, unused := new_unused.getD s.unused })
    | none => (.ok 0, { s with store := store2, unused := new_unused.getD s.unused })

/-- `Balances::transfer`: `to == 0` burns, `from == to` is a no-op success;
otherwise validate both legs, then commit both mutations. -/
def transfer (tmax : Nat) (s : Balances) (fromA toA value : Nat) : BOut × Balances :=
  if toA = 0 then burn s fromA value
  else if fromA = toA then (.ok 0, s)
  else
    match ShardedMap.get s.store fromA with
    | none => (.err .insufficient, s)
    | some (idx_from, balance_from) =>
      match transferFromLeg s balance_from value with
      | .error e => (.err e, s)
      | .ok (new_balance_from, new_unused) =>
        match transferToLeg tmax s toA value new_balance_from.isSome with
        | .error e => (.err e, s)
        | .ok (store1, insert_balance_to) =>
          transferCommit s idx_from fromA toA new_balance_from new_unused store1
            insert_balance_to

/-- Commit phase of `Balances::transfer_all`: remove the `from` entry at its
remembered shard index (infallible by construction, hence `panic` on
failure), re-using the freed slot for a brand-new `to` entry. -/
def transferAllCommit (s : Balances) (idx_from fromA toA balance_from : Nat)
    (store1 : SMap Nat Nat) (insert_balance_to : Option Nat) : BOut × Balances :=
  match ShardedMap.remove_at store1 idx_from fromA with
  | (none, store2) => (.panic, { s with store := store2 })
  | (some _, store2) =>
    match insert_balance_to with
    | some bt =>
      match ShardedMap.try_insert_new_at store2 idx_from toA bt with
      | .error _ => (.panic, { s with store := store2 })
      | .ok store3 => (.ok balance_from, { s with store := store3 })
    | none => (.ok balance_from, { s with store := store2 })

/-- `Balances::transfer_all`. -/
def transfer_all (tmax : Nat) (s : Balances) (fromA toA : Nat) : BOut × Balances :=
  match ShardedMap.get s.store fromA with
  | none => (.ok 0, s)
  | some (idx_from, balance_from) =>
    if fromA = toA then (.ok balance_from, s)
    else
      match ShardedMap.get s.store toA with
      | some (idx_to, balance_to) =>
        match nzTryAdd tmax balance_to balance_from with
        | .error e => (.err (mathToBalances e), s)
        | .ok new_balance_to =>
          if s.minimum_balance ≤ new_balance_to then
            transferAllCommit s idx_from fromA toA balance_from
              (ShardedMap.insertAt s.store idx_to toA new_balance_to) none
          else (.err .belowMinimum, s)
      | none =>
        if balance_from < s.minimum_balance then (.err .belowMinimum, s)
        else
          transferAllCommit s idx_from fromA toA balance_from s.store
            (some balance_from)

end Balances

/-! ## Allowances (`crates/vft-pack/vft/utils/src/allowances.rs`) -/

/-- `AllowancesError`. -/
inductive AllowancesError where
  | insufficient
  | map (e : ShardedMap.Error)
deriving DecidableEq

/-- Outcome of a `&mut self` Allowances operation: `ok` with the returned
previous amount when the Rust return type carries one, a typed error, or a
Rust panic (`unreachable!()`). -/
inductive AOut where
  | ok (ret : Option Nat)
  | err (e : AllowancesError)
  | panic
deriving DecidableEq

/-- The `Allowances` state: keys are `(owner, spender)` pairs of nonzero
`ActorId`s, values are `(amount, expiry block)`. -/
structure Allowances where
  expiry_period : Nat
  store : SMap (Nat × Nat) (Nat × Nat)
deriving DecidableEq

namespace Allowances

/-- `Allowances::try_new`. -/
def try_new (capacities : List Nat) (expiry_period : Nat) :
    Except AllowancesError Allowances :=
  match ShardedMap.try_new capacities with
  | .error e => .error (.map e)
  | .ok store => .ok ⟨expiry_period, store⟩

/-- `Allowances::expiry`: `self.expiry_period.saturating_add(current_bn)`
on `u32`. -/
def expiry (s : Allowances) (current_bn : Nat) : Nat :=
  min (s.expiry_period + current_bn) U32MAX

/-- `Allowances::set_expiry_period`. -/
def set_expiry_period (s : Allowances) (p : Nat) : Allowances :=
  { s with expiry_period := p }

/-- `Allowances::allocate_next_shard`. -/
def allocate_next_shard (s : Allowances) : Bool × Allowances :=
  let (b, st) := ShardedMap.alloc_next_shard s.store
  (b, { s with store := st })

/-- `Allowances::try_append_shard`. -/
def try_append_shard (s : Allowances) (c : Nat) : AOut × Allowances :=
  match ShardedMap.try_append_shard s.store c with
  | .error e => (.err (.map e), s)
  | .ok st => (.ok none, { s with store := st })

/-- `Allowances::decrease` for the amount type with MAX sentinel `amax`:
refresh only the expiry when the stored amount is the sentinel, otherwise
`try_sub` with removal on exact zero. -/
def decrease (amax : Nat) (s : Allowances) (owner spender value current_bn : Nat) :
    AOut × Allowances :=
  if owner = spender then (.ok none, s)
  else
    let exp := s.expiry current_bn
    match ShardedMap.get s.store (owner, spender) with
    | none => (.err .insufficient, s)
    | some (idx, (allowance, _expiration)) =>
      if allowance = amax then
        (.ok none,
         { s with store := ShardedMap.insertAt s.store idx (owner, spender) (allowance, exp) })
      else
        match nzTrySub allowance value with
        | .ok new_allowance =>
          (.ok none,
           { s with store := ShardedMap.insertAt s.store idx (owner, spender)
                               (new_allowance, exp) })
        | .error .underflow => (.err .insufficient, s)
        | .error .zero =>
          (.ok none, { s with store := ShardedMap.eraseAt s.store idx (owner, spender) })
        | .error .overflow => (.panic, s)

/-- `Allowances::remove`. -/
def remove (s : Allowances) (owner spender : Nat) :
    Option (Nat × Nat) × Allowances :=
  let (r, st) := ShardedMap.remove s.store (owner, spender)
  (r.map Prod.snd, { s with store := st })

/-- `Allowances::set`: no-op for `owner == spender`; store the non-zero
value (sentinel stored verbatim) with a refreshed expiry, or remove the
entry when the value is zero. Returns the previous amount, if any. -/
def set (s : Allowances) (owner spender value current_bn : Nat) :
    AOut × Allowances :=
  if owner = spender then (.ok none, s)
  else if value ≠ 0 then
    match ShardedMap.try_insert s.store (owner, spender) (value, s.expiry current_bn) with
    | .error e => (.err (.map e), s)
    | .ok (_, prev, store2) => (.ok (prev.map Prod.fst), { s with store := store2 })
  else
    let (prev, store2) := ShardedMap.remove s.store (owner, spender)
    (.ok ((prev.map Prod.snd).map Prod.fst), { s with store := store2 })

end Allowances

/-! ## CustomUint (`utils/src/math.rs`): encoding and resizing -/

/-- `n_bytes`: `bits.div_ceil(8)`. -/
def n_bytes (bits : Nat) : Nat := (bits + 7) / 8

/-- Little-endian byte `i` of a value, `ruint::Uint::byte(i)`. -/
def byteAt (v i : Nat) : Nat := v / 256 ^ i % 256

/-- `impl Encode for CustomUint`: exactly `n_bytes BITS` little-endian
bytes, no padding, no length prefix. -/
def cuEncode (bits v : Nat) : List Nat :=
  (List.range (n_bytes bits)).map fun i => byteAt v i

/-- Value of a little-endian byte string, `ruint::Uint::try_from_le_slice`
before its range check. -/
def leVal : List Nat → Nat
  | [] => 0
  | b :: t => b + 256 * leVal t

/-- `impl Decode for CustomUint`: read exactly `n_bytes BITS` bytes, fail
(like `input.read`) when fewer are available, then `try_from_le_slice`
(fails when the value does not fit in `BITS` bits). -/
def cuDecode (bits : Nat) (bytes : List Nat) : Option Nat :=
  let len := n_bytes bits
  if bytes.length < len then none
  else
    let v := leVal (bytes.take len)
    if v < 2 ^ bits then some v else none

/-- `CustomUint::try_resize::<B2, L2>`: when the target byte width is
smaller, scan the truncated high bytes for a non-zero one; then rebuild the
value from the first `min current_bytes target_bytes` little-endian bytes
and let `try_from_le_slice` re-check the target bit width. `none` is the
`Err(OverflowError)` of the source. -/
def try_resize (b1 b2 v : Nat) : Option Nat :=
  let current_bytes := n_bytes b1
  let target_bytes := n_bytes b2
  if target_bytes < current_bytes
      && (List.range' target_bytes (current_bytes - target_bytes)).any
           (fun i => byteAt v i != 0) then
    none
  else
    let w := leVal ((List.range (min current_bytes target_bytes)).map fun i => byteAt v i)
    if w < 2 ^ b2 then some w else none

/-! ## Reachable states -/

/-- States of `Balances` reachable from `Balances::try_new` through the
public mutating operations. Arguments typed `NonZero<_>` in Rust carry the
corresponding positivity hypotheses. The `allowSetMin` flag controls
whether `set_minimum_balance` is admitted in the sequence. -/
inductive Reach (tmax : Nat) (allowSetMin : Bool) : Balances → Prop where
  | init (caps : List Nat) (minB : Nat) (b : Balances) :
      Balances.try_new caps minB = .ok b → Reach tmax allowSetMin b
  | mint (b : Balances) (a v r : Nat) (b2 : Balances) :
      Reach tmax allowSetMin b → 0 < a → 0 < v →
      Balances.mint tmax b a v = (.ok r, b2) → Reach tmax allowSetMin b2
  | burn (b : Balances) (a v r : Nat) (b2 : Balances) :
      Reach tmax allowSetMin b → 0 < a → 0 < v →
      Balances.burn b a v = (.ok r, b2) → Reach tmax allowSetMin b2
  | burn_all (b : Balances) (a r : Nat) (b2 : Balances) :
      Reach tmax allowSetMin b → 0 < a →
      Balances.burn_all b a = (.ok r, b2) → Reach tmax allowSetMin b2
  | burn_unused (b : Balances) (r : Nat) (b2 : Balances) :
      Reach tmax allowSetMin b →
      Balances.burn_unused b = (.ok r, b2) → Reach tmax allowSetMin b2
  | transfer (b : Balances) (fromA toA v r : Nat) (b2 : Balances) :
      Reach tmax allowSetMin b → 0 < fromA → 0 < v →
      Balances.transfer tmax b fromA toA v = (.ok r, b2) → Reach tmax allowSetMin b2
  | transfer_all (b : Balances) (fromA toA r : Nat) (b2 : Balances) :
      Reach tmax allowSetMin b → 0 < fromA → 0 < toA →
      Balances.transfer_all tmax b fromA toA = (.ok r, b2) → Reach tmax allowSetMin b2
  | alloc (b : Balances) (r : Bool) (b2 : Balances) :
      Reach tmax allowSetMin b →
      Balances.allocate_next_shard b = (r, b2) → Reach tmax allowSetMin b2
  | append (b : Balances) (c r : Nat) (b2 : Balances) :
      Reach tmax allowSetMin b →
      Balances.try_append_shard b c = (.ok r, b2) → Reach tmax allowSetMin b2
  | set_min (b : Balances) (m : Nat) :
      allowSetMin = true → Reach tmax allowSetMin b →
      Reach tmax allowSetMin (Balances.set_minimum_balance b m)

/-- States of `Allowances` reachable from `Allowances::try_new` through the
public mutating operations; `NonZero<_>` arguments carry positivity, the
amount argument of `decrease` is bounded by the amount type. -/
inductive AReach (amax : Nat) : Allowances → Prop where
  | init (caps : List Nat) (p : Nat) (a : Allowances) :
      Allowances.try_new caps p = .ok a → AReach amax a
  | set (a : Allowances) (owner spender v bn : Nat) (r : Option Nat) (a2 : Allowances) :
      AReach amax a → 0 < owner → 0 < spender → v ≤ amax →
      Allowances.set a owner spender v bn = (.ok r, a2) → AReach amax a2
  | decrease (a : Allowances) (owner spender v bn : Nat) (r : Option Nat) (a2 : Allowances) :
      AReach amax a → 0 < owner → 0 < spender → 0 < v → v ≤ amax →
      Allowances.decrease amax a owner spender v bn = (.ok r, a2) → AReach amax a2
  | remove (a : Allowances) (owner spender : Nat) (r : Option (Nat × Nat)) (a2 : Allowances) :
      AReach amax a →
      Allowances.remove a owner spender = (r, a2) → AReach amax a2
  | alloc (a : Allowances) (r : Bool) (a2 : Allowances) :
      AReach amax a →
      Allowances.allocate_next_shard a = (r, a2) → AReach amax a2
  | append (a : Allowances) (c : Nat) (r : Option Nat) (a2 : Allowances) :
      AReach amax a →
      Allowances.try_append_shard a c = (.ok r, a2) → AReach amax a2
  | set_expiry (a : Allowances) (p : Nat) :
      AReach amax a → AReach amax (Allowances.set_expiry_period a p)

/-! ## Well-formedness -/

/-- All entries across all shards, in shard order. -/
def entriesOf (m : SMap K V) : List (K × V) :=
  (m.map Shard.entries).flatten

/-- All keys across all shards. -/
def keysOf (m : SMap K V) : List K :=
  (entriesOf m).map Prod.fst

/-- Sum of the stored amounts of a balances store. -/
def smSum (m : SMap Nat Nat) : Nat :=
  ((entriesOf m).map Prod.snd).sum

/-- Structural well-formedness plus the accounting invariant of a
`Balances` value: globally unique keys (hashbrown gives per-shard
uniqueness, the code maintains it across shards), hashbrown's
`len ≤ capacity`, the conservation equation, and the `U256` bound on the
total supply maintained by `mint`'s checked addition. -/
def Balances.WF (b : Balances) : Prop :=
  (keysOf b.store).Nodup ∧
  (∀ sh ∈ b.store, sh.entries.length ≤ sh.capacity) ∧
  smSum b.store + b.unused = b.total ∧
  b.total ≤ U256MAX

/-- Decidable equality for `Except`, needed to evaluate concrete runs. -/
instance {E A : Type} [DecidableEq E] [DecidableEq A] : DecidableEq (Except E A) := fun x y =>
  match x, y with
  | .ok a, .ok b =>
    if h : a = b then isTrue (by rw [h]) else isFalse fun hc => h (Except.ok.inj hc)
  | .error a, .error b =>
    if h : a = b then isTrue (by rw [h]) else isFalse fun hc => h (Except.error.inj hc)
  | .ok _, .error _ => isFalse fun hc => Except.noConfusion hc
  | .error _, .ok _ => isFalse fun hc => Except.noConfusion hc

/-! ## Association-list lemmas -/

theorem lookupA_eq_none {l : List (K × V)} {k : K} :
    lookupA l k = none ↔ ∀ p ∈ l, p.1 ≠ k := by
  induction l with
  | nil => simp [lookupA]
  | cons h t ih =>
    obtain ⟨k2, v2⟩ := h
    by_cases hk : k2 = k <;> simp [lookupA, hk, ih]

theorem lookupA_mem {l : List (K × V)} {k : K} {v : V}
    (h : lookupA l k = some v) : (k, v) ∈ l := by
  induction l with
  | nil => simp [lookupA] at h
  | cons h2 t ih =>
    obtain ⟨k2, v2⟩ := h2
    by_cases hk : k2 = k
    · simp [lookupA, hk] at h
      simp [hk, h]
    · simp [lookupA, hk] at h
      exact List.mem_cons_of_mem _ (ih h)

theorem mem_insertA {l : List (K × V)} {k : K} {v : V} {p : K × V}
    (h : p ∈ insertA l k v) : p ∈ l ∨ p = (k, v) := by
  induction l with
  | nil => simp [insertA] at h; simp [h]
  | cons h2 t ih =>
    obtain ⟨k2, v2⟩ := h2
    by_cases hk : k2 = k
    · simp [insertA, hk] at h
      rcases h with h | h
      · right; exact h
      · left; exact List.mem_cons_of_mem _ h
    · simp [insertA, hk] at h
      rcases h with h | h
      · left; simp [h]
      · rcases ih h with h3 | h3
        · left; exact List.mem_cons_of_mem _ h3
        · right; exact h3

theorem insertA_of_none {l : List (K × V)} {k : K} (v : V)
    (h : lookupA l k = none) : insertA l k v = l ++ [(k, v)] := by
  induction l with
  | nil => simp [insertA]
  | cons h2 t ih =>
    obtain ⟨k2, v2⟩ := h2
    by_cases hk : k2 = k
    · simp [lookupA, hk] at h
    · simp [lookupA, hk] at h
      simp [insertA, hk, ih h]

theorem keys_insertA_some {l : List (K × V)} {k : K} {v : V} (w : V)
    (h : lookupA l k = some v) :
    (insertA l k w).map Prod.fst = l.map Prod.fst := by
  induction l with
  | nil => simp [lookupA] at h
  | cons h2 t ih =>
    obtain ⟨k2, v2⟩ := h2
    by_cases hk : k2 = k
    · simp [insertA, hk]
    · simp [lookupA, hk] at h
      simp [insertA, hk, ih h]

theorem length_insertA_some {l : List (K × V)} {k : K} {v : V} (w : V)
    (h : lookupA l k = some v) : (insertA l k w).length = l.length := by
  have := keys_insertA_some (l := l) (k := k) (v := v) w h
  have h1 : ((insertA l k w).map Prod.fst).length = (l.map Prod.fst).length := by
    rw [this]
  simpa using h1

theorem length_insertA_le {l : List (K × V)} {k : K} {v : V} :
    (insertA l k v).length ≤ l.length + 1 := by
  induction l with
  | nil => simp [insertA]
  | cons h2 t ih =>
    obtain ⟨k2, v2⟩ := h2
    by_cases hk : k2 = k
    · simp [insertA, hk]
    · simp only [insertA, if_neg hk, List.length_cons]
      omega

theorem lookupA_insertA_self {l : List (K × V)} {k : K} {v : V} :
    lookupA (insertA l k v) k = some v := by
  induction l with
  | nil => simp [insertA, lookupA]
  | cons h2 t ih =>
    obtain ⟨k2, v2⟩ := h2
    by_cases hk : k2 = k
    · simp [insertA, hk, lookupA]
    · simp [insertA, hk, lookupA, ih]

theorem lookupA_insertA_ne {l : List (K × V)} {k k2 : K} {v : V}
    (h : k2 ≠ k) : lookupA (insertA l k v) k2 = lookupA l k2 := by
  have hks : k ≠ k2 := Ne.symm h
  induction l with
  | nil => simp [insertA, lookupA, hks]
  | cons h2 t ih =>
    obtain ⟨k3, v3⟩ := h2
    by_cases hk : k3 = k
    · subst hk
      simp [insertA, lookupA, hks]
    · simp only [insertA, if_neg hk, lookupA]
      by_cases hk2 : k3 = k2
      · simp [hk2]
      · simp [hk2, ih]

theorem removeA_sublist (l : List (K × V)) (k : K) : (removeA l k).Sublist l := by
  induction l with
  | nil => simp [removeA]
  | cons h2 t ih =>
    obtain ⟨k2, v2⟩ := h2
    by_cases hk : k2 = k
    · simp only [removeA, if_pos hk]
      exact List.sublist_cons_self _ _
    · simp only [removeA, if_neg hk]
      exact List.Sublist.cons₂ _ ih

theorem removeA_of_none {l : List (K × V)} {k : K}
    (h : lookupA l k = none) : removeA l k = l := by
  induction l with
  | nil => simp [removeA]
  | cons h2 t ih =>
    obtain ⟨k2, v2⟩ := h2
    by_cases hk : k2 = k
    · simp [lookupA, hk] at h
    · simp [lookupA, hk] at h
      simp [removeA, hk, ih h]

theorem lookupA_removeA_ne {l : List (K × V)} {k k2 : K}
    (h : k2 ≠ k) : lookupA (removeA l k) k2 = lookupA l k2 := by
  have hks : k ≠ k2 := Ne.symm h
  induction l with
  | nil => simp [removeA]
  | cons h2 t ih =>
    obtain ⟨k3, v3⟩ := h2
    by_cases hk : k3 = k
    · subst hk
      simp [removeA, lookupA, hks]
    · simp only [removeA, if_neg hk, lookupA]
      by_cases hk2 : k3 = k2
      · simp [hk2]
      · simp [hk2, ih]

theorem lookupA_removeA_self {l : List (K × V)} {k : K}
    (hnd : (l.map Prod.fst).Nodup) : lookupA (removeA l k) k = none := by
  induction l with
  | nil => simp [removeA, lookupA]
  | cons h2 t ih =>
    obtain ⟨k2, v2⟩ := h2
    simp only [List.map_cons, List.nodup_cons] at hnd
    by_cases hk : k2 = k
    · subst hk
      simp only [removeA, if_pos rfl]
      rw [lookupA_eq_none]
      intro p hp hpk
      exact hnd.1 (hpk ▸ List.mem_map_of_mem Prod.fst hp)
    · simp [removeA, hk, lookupA, ih hnd.2]

/-- Sum of values of an association list. -/
def vsumA (l : List (K × Nat)) : Nat := (l.map Prod.snd).sum

theorem lookupA_eq_none_keys {l : List (K × V)} {k : K} :
    lookupA l k = none ↔ k ∉ l.map Prod.fst := by
  rw [lookupA_eq_none]
  simp only [List.mem_map]
  constructor
  · rintro h ⟨p, hp, rfl⟩
    exact h p hp rfl
  · intro h p hp hpk
    exact h ⟨p, hp, hpk⟩

theorem vsumA_insertA_some {l : List (K × Nat)} {k : K} {v : Nat} (w : Nat)
    (h : lookupA l k = some v) : vsumA (insertA l k w) + v = vsumA l + w := by
  induction l with
  | nil => simp [lookupA] at h
  | cons h2 t ih =>
    obtain ⟨k2, v2⟩ := h2
    by_cases hk : k2 = k
    · simp only [lookupA, if_pos hk] at h
      obtain rfl : v2 = v := by injection h
      simp only [insertA, if_pos hk, vsumA, List.map_cons, List.sum_cons]
      omega
    · simp only [lookupA, if_neg hk] at h
      have := ih h
      simp only [insertA, if_neg hk, vsumA, List.map_cons, List.sum_cons] at this ⊢
      omega

theorem vsumA_removeA_some {l : List (K × Nat)} {k : K} {v : Nat}
    (h : lookupA l k = some v) : vsumA (removeA l k) + v = vsumA l := by
  induction l with
  | nil => simp [lookupA] at h
  | cons h2 t ih =>
    obtain ⟨k2, v2⟩ := h2
    by_cases hk : k2 = k
    · simp only [lookupA, if_pos hk] at h
      obtain rfl : v2 = v := by injection h
      simp only [removeA, if_pos hk, vsumA, List.map_cons, List.sum_cons]
      omega
    · simp only [lookupA, if_neg hk] at h
      have := ih h
      simp only [removeA, if_neg hk, vsumA, List.map_cons, List.sum_cons] at this ⊢
      omega

/-! ## ShardedMap lemmas -/

namespace ShardedMap

theorem entriesOf_nil : entriesOf ([] : SMap K V) = [] := rfl

theorem entriesOf_cons (sh : Shard K V) (t : SMap K V) :
    entriesOf (sh :: t) = sh.entries ++ entriesOf t := by
  simp [entriesOf]

theorem keysOf_cons (sh : Shard K V) (t : SMap K V) :
    keysOf (sh :: t) = sh.entries.map Prod.fst ++ keysOf t := by
  simp [keysOf, entriesOf_cons]

theorem smSum_cons (sh : Shard Nat Nat) (t : SMap Nat Nat) :
    smSum (sh :: t) = vsumA sh.entries + smSum t := by
  simp [smSum, entriesOf_cons, vsumA]

theorem get_eq_none {m : SMap K V} {k : K} :
    get m k = none ↔ k ∉ keysOf m := by
  induction m with
  | nil => simp [get, keysOf, entriesOf]
  | cons sh t ih =>
    rw [keysOf_cons]
    cases hl : lookupA sh.entries k with
    | some v =>
      simp only [get, hl]
      have : (k, v) ∈ sh.entries := lookupA_mem hl
      have : k ∈ sh.entries.map Prod.fst := List.mem_map_of_mem Prod.fst this
      simp [this]
    | none =>
      have hk : k ∉ sh.entries.map Prod.fst := lookupA_eq_none_keys.mp hl
      simp only [get, hl, List.mem_append]
      cases hg : get t k with
      | some p => simp [hg, ih.symm, hk, hg ▸ ih.symm]
      | none =>
        have := ih.mp hg
        simp [hg, hk, this]

theorem get_some_lt {m : SMap K V} {k : K} {i : Nat} {v : V}
    (h : get m k = some (i, v)) : i < m.length := by
  induction m generalizing i v with
  | nil => simp [get] at h
  | cons sh t ih =>
    cases hl : lookupA sh.entries k with
    | some w =>
      simp only [get, hl, Option.some_inj, Prod.mk.injEq] at h
      simp only [List.length_cons]
      omega
    | none =>
      simp only [get, hl, Option.map_eq_some'] at h
      obtain ⟨⟨j, w⟩, hj, he⟩ := h
      simp only [Prod.mk.injEq] at he
      have := ih hj
      simp only [List.length_cons]
      omega

theorem get_some_spec {m : SMap K V} {k : K} {i : Nat} {v : V}
    (h : get m k = some (i, v)) :
    ∃ sh, m[i]? = some sh ∧ lookupA sh.entries k = some v := by
  induction m generalizing i v with
  | nil => simp [get] at h
  | cons sh t ih =>
    cases hl : lookupA sh.entries k with
    | some w =>
      simp only [get, hl, Option.some_inj, Prod.mk.injEq] at h
      obtain ⟨h1, rfl⟩ := h
      subst h1
      exact ⟨sh, by simp, hl⟩
    | none =>
      simp only [get, hl, Option.map_eq_some'] at h
      obtain ⟨⟨j, w⟩, hj, he⟩ := h
      simp only [Prod.mk.injEq] at he
      obtain ⟨h1, rfl⟩ := he
      subst h1
      obtain ⟨sh2, hsh2, hl2⟩ := ih hj
      exact ⟨sh2, by simpa using hsh2, hl2⟩

theorem get_at_of_get {m : SMap K V} {k : K} {i : Nat} {v : V}
    (h : get m k = some (i, v)) : get_at m i k = some v := by
  obtain ⟨sh, hsh, hl⟩ := get_some_spec h
  simp [get_at, hsh, hl]

theorem mem_entriesOf_of_shard {m : SMap K V} {sh : Shard K V} {p : K × V}
    (hsh : sh ∈ m) (hp : p ∈ sh.entries) : p ∈ entriesOf m := by
  simp only [entriesOf, List.mem_flatten, List.mem_map]
  exact ⟨sh.entries, ⟨sh, hsh, rfl⟩, hp⟩

theorem mem_entriesOf_of_get {m : SMap K V} {k : K} {i : Nat} {v : V}
    (h : get m k = some (i, v)) : (k, v) ∈ entriesOf m := by
  obtain ⟨sh, hsh, hl⟩ := get_some_spec h
  exact mem_entriesOf_of_shard (List.getElem?_mem hsh) (lookupA_mem hl)

theorem smSum_insertAt_found {m : SMap Nat Nat} {k i v : Nat} (w : Nat)
    (h : get m k = some (i, v)) :
    smSum (insertAt m i k w) + v = smSum m + w := by
  induction m generalizing i v with
  | nil => simp [get] at h
  | cons sh t ih =>
    cases hl : lookupA sh.entries k with
    | some u =>
      simp only [get, hl, Option.some_inj, Prod.mk.injEq] at h
      obtain ⟨h1, rfl⟩ := h
      subst h1
      simp only [insertAt, smSum_cons]
      have := vsumA_insertA_some w hl
      omega
    | none =>
      simp only [get, hl, Option.map_eq_some'] at h
      obtain ⟨⟨j, u⟩, hj, he⟩ := h
      simp only [Prod.mk.injEq] at he
      obtain ⟨h1, rfl⟩ := he
      subst h1
      simp only [insertAt, smSum_cons]
      have := ih hj
      omega

theorem smSum_eraseAt_found {m : SMap Nat Nat} {k i v : Nat}
    (h : get m k = some (i, v)) :
    smSum (eraseAt m i k) + v = smSum m := by
  induction m generalizing i v with
  | nil => simp [get] at h
  | cons sh t ih =>
    cases hl : lookupA sh.entries k with
    | some u =>
      simp only [get, hl, Option.some_inj, Prod.mk.injEq] at h
      obtain ⟨h1, rfl⟩ := h
      subst h1
      simp only [eraseAt, smSum_cons]
      have := vsumA_removeA_some hl
      omega
    | none =>
      simp only [get, hl, Option.map_eq_some'] at h
      obtain ⟨⟨j, u⟩, hj, he⟩ := h
      simp only [Prod.mk.injEq] at he
      obtain ⟨h1, rfl⟩ := he
      subst h1
      simp only [eraseAt, smSum_cons]
      have := ih hj
      omega

theorem keysOf_insertAt_found {m : SMap K V} {k : K} {i : Nat} {v : V} (w : V)
    (h : get m k = some (i, v)) :
    keysOf (insertAt m i k w) = keysOf m := by
  induction m generalizing i v with
  | nil => simp [get] at h
  | cons sh t ih =>
    cases hl : lookupA sh.entries k with
    | some u =>
      simp only [get, hl, Option.some_inj, Prod.mk.injEq] at h
      obtain ⟨h1, rfl⟩ := h
      subst h1
      simp only [insertAt, keysOf_cons]
      rw [keys_insertA_some w hl]
    | none =>
      simp only [get, hl, Option.map_eq_some'] at h
      obtain ⟨⟨j, u⟩, hj, he⟩ := h
      simp only [Prod.mk.injEq] at he
      obtain ⟨h1, rfl⟩ := he
      subst h1
      simp only [insertAt, keysOf_cons]
      rw [ih hj]

theorem get_insertAt_ne {m : SMap K V} {k k2 : K} {i : Nat} {v : V}
    (h : k2 ≠ k) : get (insertAt m i k v) k2 = get m k2 := by
  induction m generalizing i with
  | nil => simp [insertAt]
  | cons sh t ih =>
    cases i with
    | zero =>
      simp only [insertAt, get]
      rw [lookupA_insertA_ne h]
    | succ j =>
      simp only [insertAt, get]
      rw [ih]

theorem get_eraseAt_ne {m : SMap K V} {k k2 : K} {i : Nat}
    (h : k2 ≠ k) : get (eraseAt m i k) k2 = get m k2 := by
  induction m generalizing i with
  | nil => simp [eraseAt]
  | cons sh t ih =>
    cases i with
    | zero =>
      simp only [eraseAt, get]
      rw [lookupA_removeA_ne h]
    | succ j =>
      simp only [eraseAt, get]
      rw [ih]

theorem get_insertAt_found {m : SMap K V} {k : K} {i : Nat} {v : V} (w : V)
    (h : get m k = some (i, v)) :
    get (insertAt m i k w) k = some (i, w) := by
  induction m generalizing i v with
  | nil => simp [get] at h
  | cons sh t ih =>
    cases hl : lookupA sh.entries k with
    | some u =>
      simp only [get, hl, Option.some_inj, Prod.mk.injEq] at h
      obtain ⟨h1, rfl⟩ := h
      subst h1
      simp [insertAt, get, lookupA_insertA_self]
    | none =>
      simp only [get, hl, Option.map_eq_some'] at h
      obtain ⟨⟨j, u⟩, hj, he⟩ := h
      simp only [Prod.mk.injEq] at he
      obtain ⟨h1, rfl⟩ := he
      subst h1
      simp only [insertAt, get, hl]
      rw [ih hj]
      simp

theorem shard_keys_nodup {m : SMap K V} (hnd : (keysOf m).Nodup) :
    ∀ sh ∈ m, (sh.entries.map Prod.fst).Nodup := by
  induction m with
  | nil => simp
  | cons sh t ih =>
    rw [keysOf_cons] at hnd
    intro sh2 hsh2
    rcases List.mem_cons.mp hsh2 with h3 | h3
    · exact h3 ▸ hnd.of_append_left
    · exact ih hnd.of_append_right sh2 h3

theorem keysOf_disjoint_of_cons {sh : Shard K V} {t : SMap K V}
    (hnd : (keysOf (sh :: t)).Nodup) :
    ∀ k ∈ sh.entries.map Prod.fst, k ∉ keysOf t := by
  rw [keysOf_cons] at hnd
  exact fun k h1 h2 => List.disjoint_of_nodup_append hnd h1 h2

theorem get_eraseAt_found {m : SMap K V} {k : K} {i : Nat} {v : V}
    (hnd : (keysOf m).Nodup) (h : get m k = some (i, v)) :
    get (eraseAt m i k) k = none := by
  induction m generalizing i v with
  | nil => simp [get] at h
  | cons sh t ih =>
    cases hl : lookupA sh.entries k with
    | some u =>
      simp only [get, hl, Option.some_inj, Prod.mk.injEq] at h
      obtain ⟨h1, rfl⟩ := h
      subst h1
      have hsn : (sh.entries.map Prod.fst).Nodup :=
        shard_keys_nodup hnd sh (List.mem_cons_self _ _)
      have hkt : k ∉ keysOf t :=
        keysOf_disjoint_of_cons hnd k
          (List.mem_map_of_mem Prod.fst (lookupA_mem hl))
      simp only [eraseAt, get, lookupA_removeA_self hsn]
      rw [show ShardedMap.get t k = none from get_eq_none.mpr hkt]
      rfl
    | none =>
      simp only [get, hl, Option.map_eq_some'] at h
      obtain ⟨⟨j, u⟩, hj, he⟩ := h
      simp only [Prod.mk.injEq] at he
      obtain ⟨h1, rfl⟩ := he
      subst h1
      have hnd2 : (keysOf t).Nodup := by
        rw [keysOf_cons] at hnd
        exact hnd.of_append_right
      simp only [eraseAt, get, hl, ih hnd2 hj]
      rfl

theorem entriesOf_eraseAt_sublist (m : SMap K V) (i : Nat) (k : K) :
    (entriesOf (eraseAt m i k)).Sublist (entriesOf m) := by
  induction m generalizing i with
  | nil => simp [eraseAt]
  | cons sh t ih =>
    cases i with
    | zero =>
      simp only [eraseAt, entriesOf_cons]
      exact List.Sublist.append (removeA_sublist _ _) (List.Sublist.refl _)
    | succ j =>
      simp only [eraseAt, entriesOf_cons]
      exact List.Sublist.append (List.Sublist.refl _) (ih j)

theorem mem_entriesOf_insertAt {m : SMap K V} {i : Nat} {k : K} {v : V} {p : K × V}
    (h : p ∈ entriesOf (insertAt m i k v)) : p ∈ entriesOf m ∨ p = (k, v) := by
  induction m generalizing i with
  | nil => simp [insertAt, entriesOf] at h
  | cons sh t ih =>
    cases i with
    | zero =>
      simp only [insertAt, entriesOf_cons, List.mem_append] at h
      rcases h with h | h
      · rcases mem_insertA h with h2 | h2
        · exact Or.inl (by simp [entriesOf_cons, h2])
        · exact Or.inr h2
      · exact Or.inl (by simp [entriesOf_cons, h])
    | succ j =>
      simp only [insertAt, entriesOf_cons, List.mem_append] at h
      rcases h with h | h
      · exact Or.inl (by simp [entriesOf_cons, h])
      · rcases ih h with h2 | h2
        · exact Or.inl (by simp [entriesOf_cons, h2])
        · exact Or.inr h2

theorem length_insertAt (m : SMap K V) (i : Nat) (k : K) (v : V) :
    (insertAt m i k v).length = m.length := by
  induction m generalizing i with
  | nil => simp [insertAt]
  | cons sh t ih =>
    cases i with
    | zero => simp [insertAt]
    | succ j => simp [insertAt, ih]

theorem length_eraseAt (m : SMap K V) (i : Nat) (k : K) :
    (eraseAt m i k).length = m.length := by
  induction m generalizing i with
  | nil => simp [eraseAt]
  | cons sh t ih =>
    cases i with
    | zero => simp [eraseAt]
    | succ j => simp [eraseAt, ih]

theorem entriesOf_insertAt_fresh {m : SMap K V} {i : Nat} {k : K} {v : V}
    (hk : k ∉ keysOf m) (hi : i < m.length) :
    (entriesOf (insertAt m i k v)).Perm (entriesOf m ++ [(k, v)]) := by
  induction m generalizing i with
  | nil => simp at hi
  | cons sh t ih =>
    rw [keysOf_cons, List.mem_append] at hk
    push_neg at hk
    cases i with
    | zero =>
      have hl : lookupA sh.entries k = none := lookupA_eq_none_keys.mpr hk.1
      simp only [insertAt, entriesOf_cons, insertA_of_none v hl]
      rw [List.append_assoc, List.append_assoc]
      exact List.Perm.append_left _ List.perm_append_comm
    | succ j =>
      have hj : j < t.length := by simpa using hi
      simp only [insertAt, entriesOf_cons]
      rw [List.append_assoc]
      exact List.Perm.append_left _ (ih hk.2 hj)

theorem smSum_insertAt_fresh {m : SMap Nat Nat} {i k v : Nat}
    (hk : k ∉ keysOf m) (hi : i < m.length) :
    smSum (insertAt m i k v) = smSum m + v := by
  have hp := (entriesOf_insertAt_fresh (v := v) hk hi).map Prod.snd
  have := hp.sum_eq
  simpa [smSum] using this

theorem keysOf_insertAt_fresh {m : SMap K V} {i : Nat} {k : K} {v : V}
    (hk : k ∉ keysOf m) (hi : i < m.length) :
    (keysOf (insertAt m i k v)).Perm (keysOf m ++ [k]) := by
  have hp := (entriesOf_insertAt_fresh (v := v) hk hi).map Prod.fst
  simpa [keysOf] using hp

theorem keysOf_insertAt_fresh_nodup {m : SMap K V} {i : Nat} {k : K} {v : V}
    (hnd : (keysOf m).Nodup) (hk : k ∉ keysOf m) (hi : i < m.length) :
    (keysOf (insertAt m i k v)).Nodup := by
  rw [(keysOf_insertAt_fresh (v := v) hk hi).nodup_iff]
  rw [List.nodup_append]
  refine ⟨hnd, List.nodup_singleton _, ?_⟩
  intro a ha hb
  simp only [List.mem_singleton] at hb
  exact hk (hb ▸ ha)

theorem firstSpace_some {m : SMap K V} {i : Nat} (h : firstSpace m = some i) :
    ∃ sh, m[i]? = some sh ∧ sh.entries.length < sh.capacity := by
  induction m generalizing i with
  | nil => simp [firstSpace] at h
  | cons sh t ih =>
    by_cases hc : sh.entries.length < sh.capacity
    · simp only [firstSpace, if_pos hc, Option.some_inj] at h
      subst h
      exact ⟨sh, by simp, hc⟩
    · simp only [firstSpace, if_neg hc, Option.map_eq_some'] at h
      obtain ⟨j, hj, rfl⟩ := h
      obtain ⟨sh2, hsh2, hlt⟩ := ih hj
      exact ⟨sh2, by simpa using hsh2, hlt⟩

theorem firstSpace_some_lt {m : SMap K V} {i : Nat} (h : firstSpace m = some i) :
    i < m.length := by
  obtain ⟨sh, hsh, _⟩ := firstSpace_some h
  by_contra hcon
  rw [List.getElem?_eq_none (Nat.le_of_not_lt hcon)] at hsh
  exact Option.noConfusion hsh

theorem firstSpace_none_iff {m : SMap K V} :
    firstSpace m = none ↔ has_space m = false := by
  induction m with
  | nil => simp [firstSpace, has_space]
  | cons sh t ih =>
    by_cases hc : sh.entries.length < sh.capacity
    · simp [firstSpace, has_space, hc]
    · simp [firstSpace, has_space, hc, Option.map_eq_none', ih]

theorem remove_eq (m : SMap K V) (k : K) :
    remove m k = (get m k,
      match get m k with
      | some p => eraseAt m p.1 k
      | none => m) := by
  induction m with
  | nil => simp [remove, get]
  | cons sh t ih =>
    cases hl : lookupA sh.entries k with
    | some v => simp [remove, get, hl, eraseAt]
    | none =>
      simp only [remove, get, hl, ih]
      cases hg : get t k with
      | none => simp
      | some p =>
        obtain ⟨j, w⟩ := p
        simp [eraseAt]

theorem allocAux_spec {m : SMap K V}
    (hlen : ∀ sh ∈ m, sh.entries.length ≤ sh.capacity) :
    entriesOf (allocAux m).2 = entriesOf m ∧
    (∀ sh ∈ (allocAux m).2, sh.entries.length ≤ sh.capacity) ∧
    (allocAux m).2.length = m.length := by
  induction m with
  | nil => simp [allocAux, entriesOf]
  | cons sh t ih =>
    by_cases hc : sh.capacity = 0
    · have h0 : sh.entries.length ≤ 0 := hc ▸ hlen sh (List.mem_cons_self _ _)
      have he : sh.entries = [] := List.eq_nil_of_length_eq_zero (Nat.le_zero.mp h0)
      simp only [allocAux, if_pos hc]
      refine ⟨by simp [entriesOf_cons, he], ?_, by simp⟩
      intro sh2 hsh2
      rcases List.mem_cons.mp hsh2 with h2 | h2
      · subst h2; simp
      · exact hlen sh2 (List.mem_cons_of_mem _ h2)
    · have htl : ∀ sh2 ∈ t, sh2.entries.length ≤ sh2.capacity :=
        fun sh2 h2 => hlen sh2 (List.mem_cons_of_mem _ h2)
      obtain ⟨ih1, ih2, ih3⟩ := ih htl
      cases hA : allocAux t with
      | mk r t2 =>
        rw [hA] at ih1 ih2 ih3
        simp only [allocAux, if_neg hc, hA]
        refine ⟨by simp [entriesOf_cons, ih1], ?_, by simp [ih3]⟩
        intro sh2 hsh2
        rcases List.mem_cons.mp hsh2 with h2 | h2
        · exact h2 ▸ hlen sh (List.mem_cons_self _ _)
        · exact ih2 sh2 h2

theorem alloc_next_shard_snd (m : SMap K V) :
    (alloc_next_shard m).2 = (allocAux m).2 := by
  cases hA : allocAux m with
  | mk r m2 => simp [alloc_next_shard, hA]

theorem lenOK_insertAt_found {m : SMap K V} {k : K} {i : Nat} {v : V} (w : V)
    (h : get m k = some (i, v))
    (hlen : ∀ sh ∈ m, sh.entries.length ≤ sh.capacity) :
    ∀ sh ∈ insertAt m i k w, sh.entries.length ≤ sh.capacity := by
  induction m generalizing i v with
  | nil => simp [get] at h
  | cons sh t ih =>
    cases hl : lookupA sh.entries k with
    | some u =>
      simp only [get, hl, Option.some_inj, Prod.mk.injEq] at h
      obtain ⟨h1, rfl⟩ := h
      subst h1
      intro sh2 hsh2
      simp only [insertAt, List.mem_cons] at hsh2
      rcases hsh2 with h2 | h2
      · subst h2
        simp only [Shard.capacity]
        rw [length_insertA_some w hl]
        exact hlen sh (List.mem_cons_self _ _)
      · exact hlen sh2 (List.mem_cons_of_mem _ h2)
    | none =>
      simp only [get, hl, Option.map_eq_some'] at h
      obtain ⟨⟨j, u⟩, hj, he⟩ := h
      simp only [Prod.mk.injEq] at he
      obtain ⟨h1, rfl⟩ := he
      subst h1
      intro sh2 hsh2
      simp only [insertAt, List.mem_cons] at hsh2
      rcases hsh2 with h2 | h2
      · exact h2 ▸ hlen sh (List.mem_cons_self _ _)
      · exact ih hj (fun s hs => hlen s (List.mem_cons_of_mem _ hs)) sh2 h2

theorem lenOK_insertAt_space {m : SMap K V} {i : Nat} {k : K} {v : V} {sh0 : Shard K V}
    (hsh : m[i]? = some sh0) (hsp : sh0.entries.length < sh0.capacity)
    (hlen : ∀ sh ∈ m, sh.entries.length ≤ sh.capacity) :
    ∀ sh ∈ insertAt m i k v, sh.entries.length ≤ sh.capacity := by
  induction m generalizing i with
  | nil => simp at hsh
  | cons sh t ih =>
    cases i with
    | zero =>
      simp only [List.getElem?_cons_zero, Option.some_inj] at hsh
      subst hsh
      intro sh2 hsh2
      simp only [insertAt, List.mem_cons] at hsh2
      rcases hsh2 with h2 | h2
      · subst h2
        simp only [Shard.capacity] at hsp ⊢
        have := length_insertA_le (l := sh.entries) (k := k) (v := v)
        omega
      · exact hlen sh2 (List.mem_cons_of_mem _ h2)
    | succ j =>
      simp only [List.getElem?_cons_succ] at hsh
      intro sh2 hsh2
      simp only [insertAt, List.mem_cons] at hsh2
      rcases hsh2 with h2 | h2
      · exact h2 ▸ hlen sh (List.mem_cons_self _ _)
      · exact ih hsh (fun s hs => hlen s (List.mem_cons_of_mem _ hs)) sh2 h2

theorem lenOK_eraseAt {m : SMap K V} {i : Nat} {k : K}
    (hlen : ∀ sh ∈ m, sh.entries.length ≤ sh.capacity) :
    ∀ sh ∈ eraseAt m i k, sh.entries.length ≤ sh.capacity := by
  induction m generalizing i with
  | nil => simp [eraseAt]
  | cons sh t ih =>
    cases i with
    | zero =>
      intro sh2 hsh2
      simp only [eraseAt, List.mem_cons] at hsh2
      rcases hsh2 with h2 | h2
      · subst h2
        simp only [Shard.capacity]
        have h3 := (removeA_sublist sh.entries k).length_le
        have h4 := hlen sh (List.mem_cons_self _ _)
        simp only [Shard.capacity] at h4
        omega
      · exact hlen sh2 (List.mem_cons_of_mem _ h2)
    | succ j =>
      intro sh2 hsh2
      simp only [eraseAt, List.mem_cons] at hsh2
      rcases hsh2 with h2 | h2
      · exact h2 ▸ hlen sh (List.mem_cons_self _ _)
      · exact ih (fun s hs => hlen s (List.mem_cons_of_mem _ hs)) sh2 h2

theorem entriesOf_append (a b : SMap K V) :
    entriesOf (a ++ b) = entriesOf a ++ entriesOf b := by
  simp [entriesOf]

theorem entriesOf_eq_nil {m : SMap K V} (h : ∀ sh ∈ m, sh.entries = []) :
    entriesOf m = [] := by
  induction m with
  | nil => rfl
  | cons sh t ih =>
    rw [entriesOf_cons, h sh (List.mem_cons_self _ _),
      ih fun s hs => h s (List.mem_cons_of_mem _ hs)]
    rfl

theorem try_new_ok_shape {caps : List Nat} {m : SMap K V}
    (h : try_new caps = .ok m) :
    ∀ sh ∈ m, sh.entries = [] ∧ sh.alloc = false := by
  unfold try_new at h
  split at h
  · obtain rfl : _ = m := by injection h
    intro sh hsh
    obtain ⟨c, hc, rfl⟩ := List.mem_map.mp hsh
    exact ⟨rfl, rfl⟩
  · exact absurd h (by simp)

theorem firstSpace_of_unalloc {m : SMap K V}
    (h : ∀ sh ∈ m, sh.capacity = 0) : firstSpace m = none := by
  induction m with
  | nil => rfl
  | cons sh t ih =>
    have h0 := h sh (List.mem_cons_self _ _)
    have : ¬ sh.entries.length < sh.capacity := by omega
    simp only [firstSpace, if_neg this, Option.map_eq_none']
    exact ih fun s hs => h s (List.mem_cons_of_mem _ hs)

theorem value_le_smSum {m : SMap Nat Nat} {k i v : Nat}
    (h : get m k = some (i, v)) : v ≤ smSum m := by
  have hm := mem_entriesOf_of_get h
  have : v ∈ (entriesOf m).map Prod.snd := List.mem_map_of_mem Prod.snd hm
  exact List.single_le_sum (fun x _ => Nat.zero_le x) v this

end ShardedMap

theorem uCheckedAdd_some {a b c : Nat} :
    uCheckedAdd a b = some c ↔ c = a + b ∧ a + b ≤ U256MAX := by
  unfold uCheckedAdd
  split
  · simp [eq_comm]
    omega
  · simp
    omega

theorem uCheckedSub_some {a b c : Nat} :
    uCheckedSub a b = some c ↔ b ≤ a ∧ c = a - b := by
  unfold uCheckedSub
  split
  · simp [eq_comm]
    omega
  · simp
    omega

theorem nzTryAdd_ok {tmax a b c : Nat} :
    nzTryAdd tmax a b = .ok c ↔ c = a + b ∧ a + b ≤ tmax ∧ a + b ≠ 0 := by
  unfold nzTryAdd
  cases h : tCheckedAdd tmax a b with
  | none =>
    have hgt : ¬ a + b ≤ tmax := by
      unfold tCheckedAdd at h
      by_contra hc
      rw [if_pos hc] at h
      exact Option.noConfusion h
    simp [hgt]
  | some s =>
    have hs : s = a + b ∧ a + b ≤ tmax := by
      unfold tCheckedAdd at h
      by_cases hc : a + b ≤ tmax
      · rw [if_pos hc] at h
        exact ⟨(Option.some_inj.mp h).symm, hc⟩
      · rw [if_neg hc] at h
        exact absurd h (by simp)
    obtain ⟨rfl, hle⟩ := hs
    by_cases hz : a + b = 0
    · simp [hz]
    · simp [hz, hle, eq_comm]

theorem nzTrySub_ok {a b c : Nat} :
    nzTrySub a b = .ok c ↔ b ≤ a ∧ c = a - b ∧ a - b ≠ 0 := by
  unfold nzTrySub
  split
  · split
    · simp_all
    · simp [eq_comm]
      omega
  · simp
    omega

theorem nzTrySub_zero {a b : Nat} :
    nzTrySub a b = .error .zero ↔ b ≤ a ∧ a - b = 0 := by
  unfold nzTrySub
  split
  · split
    · simp
      omega
    · simp
      omega
  · simp
    omega

namespace Balances

theorem wf_try_new {caps : List Nat} {minB : Nat} {b : Balances}
    (h : try_new caps minB = .ok b) : b.WF := by
  unfold try_new at h
  cases hm : ShardedMap.try_new (K := Nat) (V := Nat) caps with
  | error e => rw [hm] at h; exact absurd h (by simp)
  | ok store =>
    rw [hm] at h
    obtain rfl : _ = b := by injection h
    have hshape := ShardedMap.try_new_ok_shape hm
    have hent : entriesOf store = [] :=
      ShardedMap.entriesOf_eq_nil fun sh hsh => (hshape sh hsh).1
    refine ⟨by simp [keysOf, hent], ?_, by simp [smSum, hent], by simp [U256MAX]⟩
    intro sh hsh
    simp [(hshape sh hsh).1]

theorem wf_set_minimum_balance {b : Balances} {m : Nat} (h : b.WF) :
    (set_minimum_balance b m).WF := h

theorem wf_allocate_next_shard {b : Balances} {r : Bool} {b2 : Balances}
    (hwf : b.WF) (he : allocate_next_shard b = (r, b2)) : b2.WF := by
  obtain ⟨hnd, hlen, hsum, htot⟩ := hwf
  unfold allocate_next_shard at he
  cases hA : ShardedMap.alloc_next_shard b.store with
  | mk r2 st =>
    rw [hA, Prod.mk.injEq] at he
    obtain ⟨-, rfl⟩ := he
    have hst : st = (ShardedMap.allocAux b.store).2 := by
      have := ShardedMap.alloc_next_shard_snd b.store
      rw [hA] at this
      exact this
    obtain ⟨h1, h2, h3⟩ := ShardedMap.allocAux_spec hlen
    subst hst
    exact ⟨by simpa [keysOf, h1] using hnd, h2,
      by simpa [smSum, h1] using hsum, htot⟩

theorem wf_try_append_shard {b : Balances} {c r : Nat} {b2 : Balances}
    (hwf : b.WF) (he : try_append_shard b c = (.ok r, b2)) : b2.WF := by
  obtain ⟨hnd, hlen, hsum, htot⟩ := hwf
  unfold try_append_shard at he
  cases hap : ShardedMap.try_append_shard b.store c with
  | error e => rw [hap] at he; exact absurd he (by simp)
  | ok st =>
    rw [hap, Prod.mk.injEq] at he
    obtain ⟨-, rfl⟩ := he
    have hst : st = b.store ++ [(⟨[], c, false⟩ : Shard Nat Nat)] := by
      unfold ShardedMap.try_append_shard at hap
      split at hap
      · exact (Except.ok.inj hap).symm
      · exact absurd hap (by simp)
    subst hst
    have hE : entriesOf (b.store ++ [(⟨[], c, false⟩ : Shard Nat Nat)]) =
        entriesOf b.store := by
      rw [ShardedMap.entriesOf_append]
      simp [entriesOf]
    refine ⟨by simpa [keysOf, hE] using hnd, ?_,
      by simpa [smSum, hE] using hsum, htot⟩
    intro sh hsh
    rcases List.mem_append.mp hsh with h2 | h2
    · exact hlen sh h2
    · simp only [List.mem_singleton] at h2
      subst h2
      simp [Shard.capacity]

theorem wf_burn_unused {b : Balances} {r : Nat} {b2 : Balances}
    (hwf : b.WF) (he : burn_unused b = (.ok r, b2)) : b2.WF := by
  obtain ⟨hnd, hlen, hsum, htot⟩ := hwf
  unfold burn_unused at he
  cases hs : uCheckedSub b.total b.unused with
  | none => rw [hs] at he; exact absurd he (by simp)
  | some t =>
    rw [hs, Prod.mk.injEq] at he
    obtain ⟨-, rfl⟩ := he
    obtain ⟨hle, rfl⟩ := uCheckedSub_some.mp hs
    exact ⟨hnd, hlen, by dsimp only; omega, by dsimp only; omega⟩

theorem wf_burn_all {b : Balances} {a r : Nat} {b2 : Balances}
    (hwf : b.WF) (he : burn_all b a = (.ok r, b2)) : b2.WF := by
  obtain ⟨hnd, hlen, hsum, htot⟩ := hwf
  unfold burn_all at he
  rw [ShardedMap.remove_eq] at he
  cases hget : ShardedMap.get b.store a with
  | none =>
    rw [hget, Prod.mk.injEq] at he
    obtain ⟨-, rfl⟩ := he
    exact ⟨hnd, hlen, hsum, htot⟩
  | some p =>
    obtain ⟨i, v⟩ := p
    rw [hget] at he
    simp only at he
    cases hs : uCheckedSub b.total v with
    | none => rw [hs] at he; exact absurd he (by simp)
    | some t =>
      rw [hs, Prod.mk.injEq] at he
      obtain ⟨-, rfl⟩ := he
      obtain ⟨hle, rfl⟩ := uCheckedSub_some.mp hs
      have hsum2 := ShardedMap.smSum_eraseAt_found hget
      have hsub := ShardedMap.entriesOf_eraseAt_sublist b.store i a
      refine ⟨?_, ShardedMap.lenOK_eraseAt hlen, by dsimp only; omega, by dsimp only; omega⟩
      exact ((hsub.map Prod.fst).nodup hnd)

end Balances

namespace ShardedMap

theorem try_insert_new_ok {m : SMap K V} {k : K} {v : V} {i : Nat}
    {store2 : SMap K V} (h : try_insert_new m k v = .ok (i, store2)) :
    firstSpace m = some i ∧ store2 = insertAt m i k v := by
  unfold try_insert_new at h
  cases hf : firstSpace m with
  | none => simp [hf] at h
  | some j =>
    simp only [hf] at h
    have h2 := Except.ok.inj h
    rw [Prod.mk.injEq] at h2
    obtain ⟨rfl, h22⟩ := h2
    exact ⟨rfl, h22.symm⟩

theorem try_insert_new_at_ok {m : SMap K V} {i : Nat} {k : K} {v : V}
    {store2 : SMap K V} (h : try_insert_new_at m i k v = .ok store2) :
    ∃ sh, m[i]? = some sh ∧ sh.entries.length < sh.capacity ∧
      store2 = insertAt m i k v := by
  unfold try_insert_new_at at h
  cases hm : m[i]? with
  | none => simp [hm] at h
  | some sh =>
    simp only [hm] at h
    split at h
    · rename_i hlt
      exact ⟨sh, rfl, hlt, (Except.ok.inj h).symm⟩
    · simp at h

theorem try_insert_ok {m : SMap K V} {k : K} {v : V} {i : Nat}
    {prev : Option V} {store2 : SMap K V}
    (h : try_insert m k v = .ok (i, prev, store2)) :
    store2 = insertAt m i k v ∧
    ((∃ old, prev = some old ∧ get m k = some (i, old)) ∨
     (prev = none ∧ get m k = none ∧ firstSpace m = some i)) := by
  unfold try_insert at h
  cases hget : get m k with
  | some p =>
    obtain ⟨j, old⟩ := p
    simp only [hget] at h
    have h2 := Except.ok.inj h
    rw [Prod.mk.injEq, Prod.mk.injEq] at h2
    obtain ⟨rfl, rfl, h23⟩ := h2
    exact ⟨h23.symm, Or.inl ⟨old, rfl, rfl⟩⟩
  | none =>
    simp only [hget] at h
    cases hf : firstSpace m with
    | none => simp [hf] at h
    | some j =>
      simp only [hf] at h
      have h2 := Except.ok.inj h
      rw [Prod.mk.injEq, Prod.mk.injEq] at h2
      obtain ⟨rfl, rfl, h23⟩ := h2
      exact ⟨h23.symm, Or.inr ⟨rfl, rfl, rfl⟩⟩

end ShardedMap

namespace Balances

theorem burnFinish_ok {s : Balances} {v r : Nat} {b2 : Balances}
    (h : burnFinish s v = (.ok r, b2)) :
    v ≤ s.total ∧ b2 = { s with total := s.total - v } := by
  unfold burnFinish at h
  cases hs : uCheckedSub s.total v with
  | none => simp [hs] at h
  | some t =>
    simp only [hs, Prod.mk.injEq] at h
    obtain ⟨-, rfl⟩ := h
    obtain ⟨hle, rfl⟩ := uCheckedSub_some.mp hs
    exact ⟨hle, rfl⟩

theorem wf_mint {tmax : Nat} {b : Balances} {a v r : Nat} {b2 : Balances}
    (hwf : b.WF) (he : mint tmax b a v = (.ok r, b2)) : b2.WF := by
  obtain ⟨hnd, hlen, hsum, htot⟩ := hwf
  unfold mint at he
  cases hadd : uCheckedAdd b.total v with
  | none => simp [hadd] at he
  | some new_total =>
    simp only [hadd] at he
    obtain ⟨rfl, hbound⟩ := uCheckedAdd_some.mp hadd
    cases hget : ShardedMap.get b.store a with
    | some p =>
      obtain ⟨idx, bal⟩ := p
      simp only [hget] at he
      cases htry : nzTryAdd tmax bal v with
      | error e => simp [htry] at he
      | ok nb =>
        simp only [htry] at he
        obtain ⟨rfl, hle, hnz⟩ := nzTryAdd_ok.mp htry
        split at he
        · rw [Prod.mk.injEq] at he
          obtain ⟨-, rfl⟩ := he
          have hs := ShardedMap.smSum_insertAt_found (bal + v) hget
          refine ⟨?_, ShardedMap.lenOK_insertAt_found _ hget hlen, ?_, ?_⟩
          · dsimp only
            rw [ShardedMap.keysOf_insertAt_found (bal + v) hget]
            exact hnd
          · dsimp only
            omega
          · dsimp only
            omega
        · simp at he
    | none =>
      simp only [hget] at he
      split at he
      · simp at he
      · cases hins : ShardedMap.try_insert_new b.store a v with
        | error e => simp [hins] at he
        | ok q =>
          obtain ⟨i, store2⟩ := q
          simp only [hins, Prod.mk.injEq] at he
          obtain ⟨-, rfl⟩ := he
          obtain ⟨hfs, rfl⟩ := ShardedMap.try_insert_new_ok hins
          have hfresh : a ∉ keysOf b.store := ShardedMap.get_eq_none.mp hget
          have hilt : i < b.store.length := ShardedMap.firstSpace_some_lt hfs
          refine ⟨ShardedMap.keysOf_insertAt_fresh_nodup hnd hfresh hilt, ?_, ?_, ?_⟩
          · obtain ⟨sh0, hsh0, hsp⟩ := ShardedMap.firstSpace_some hfs
            exact ShardedMap.lenOK_insertAt_space hsh0 hsp hlen
          · dsimp only
            rw [ShardedMap.smSum_insertAt_fresh hfresh hilt]
            omega
          · dsimp only
            omega

theorem wf_burn {b : Balances} {a v r : Nat} {b2 : Balances}
    (hwf : b.WF) (he : burn b a v = (.ok r, b2)) : b2.WF := by
  obtain ⟨hnd, hlen, hsum, htot⟩ := hwf
  unfold burn at he
  cases hget : ShardedMap.get b.store a with
  | none => simp [hget] at he
  | some p =>
    obtain ⟨idx, bal⟩ := p
    simp only [hget] at he
    have hbal : bal ≤ smSum b.store := ShardedMap.value_le_smSum hget
    cases htry : nzTrySub bal v with
    | ok remaining =>
      simp only [htry] at he
      obtain ⟨hvle, rfl, hnz⟩ := nzTrySub_ok.mp htry
      split at he
      · obtain ⟨hvt, rfl⟩ := burnFinish_ok he
        have hs := ShardedMap.smSum_insertAt_found (bal - v) hget
        refine ⟨?_, ShardedMap.lenOK_insertAt_found _ hget hlen, ?_, ?_⟩
        · dsimp only
          rw [ShardedMap.keysOf_insertAt_found (bal - v) hget]
          exact hnd
        · dsimp only at hvt ⊢
          omega
        · dsimp only at hvt ⊢
          omega
      · cases hua : uCheckedAdd b.unused (bal - v) with
        | none => simp [hua] at he
        | some unused2 =>
          simp only [hua] at he
          obtain ⟨rfl, hub⟩ := uCheckedAdd_some.mp hua
          obtain ⟨hvt, rfl⟩ := burnFinish_ok he
          have hs := ShardedMap.smSum_eraseAt_found hget
          have hsub := ShardedMap.entriesOf_eraseAt_sublist b.store idx a
          refine ⟨(hsub.map Prod.fst).nodup hnd, ShardedMap.lenOK_eraseAt hlen, ?_, ?_⟩
          · dsimp only at hvt ⊢
            omega
          · dsimp only at hvt ⊢
            omega
    | error e =>
      cases e with
      | zero =>
        simp only [htry] at he
        obtain ⟨hvle, hz⟩ := nzTrySub_zero.mp htry
        obtain ⟨hvt, rfl⟩ := burnFinish_ok he
        have hs := ShardedMap.smSum_eraseAt_found hget
        have hsub := ShardedMap.entriesOf_eraseAt_sublist b.store idx a
        refine ⟨(hsub.map Prod.fst).nodup hnd, ShardedMap.lenOK_eraseAt hlen, ?_, ?_⟩
        · dsimp only at hvt ⊢
          omega
        · dsimp only at hvt ⊢
          omega
      | overflow => simp [htry] at he
      | underflow => simp [htry] at he

end Balances

namespace Balances

theorem transferFromLeg_ok {s : Balances} {bf v : Nat} {nbf nu : Option Nat}
    (h : transferFromLeg s bf v = .ok (nbf, nu)) :
    (nbf = some (bf - v) ∧ nu = none ∧ v ≤ bf ∧ bf - v ≠ 0 ∧
       s.minimum_balance ≤ bf - v) ∨
    (nbf = none ∧ nu = some (s.unused + (bf - v)) ∧ v ≤ bf ∧ bf - v ≠ 0 ∧
       bf - v < s.minimum_balance ∧ s.unused + (bf - v) ≤ U256MAX) ∨
    (nbf = none ∧ nu = none ∧ bf = v) := by
  unfold transferFromLeg at h
  cases htry : nzTrySub bf v with
  | ok remaining =>
    simp only [htry] at h
    obtain ⟨hvle, rfl, hnz⟩ := nzTrySub_ok.mp htry
    split at h
    · have h2 := Except.ok.inj h
      rw [Prod.mk.injEq] at h2
      obtain ⟨rfl, rfl⟩ := h2
      left
      exact ⟨rfl, rfl, hvle, hnz, by assumption⟩
    · cases hua : uCheckedAdd s.unused (bf - v) with
      | none => simp [hua] at h
      | some u2 =>
        simp only [hua] at h
        obtain ⟨rfl, hub⟩ := uCheckedAdd_some.mp hua
        have h2 := Except.ok.inj h
        rw [Prod.mk.injEq] at h2
        obtain ⟨rfl, rfl⟩ := h2
        right; left
        exact ⟨rfl, rfl, hvle, hnz, by omega, hub⟩
  | error e =>
    cases e with
    | zero =>
      simp only [htry] at h
      obtain ⟨hvle, hz⟩ := nzTrySub_zero.mp htry
      have h2 := Except.ok.inj h
      rw [Prod.mk.injEq] at h2
      obtain ⟨rfl, rfl⟩ := h2
      right; right
      exact ⟨rfl, rfl, by omega⟩
    | overflow => simp [htry] at h
    | underflow => simp [htry] at h

theorem transferToLeg_ok {tmax : Nat} {s : Balances} {toA v : Nat} {keep : Bool}
    {store1 : SMap Nat Nat} {ibt : Option Nat}
    (h : transferToLeg tmax s toA v keep = .ok (store1, ibt)) :
    (∃ idx_to bt, ShardedMap.get s.store toA = some (idx_to, bt) ∧ ibt = none ∧
       bt + v ≤ tmax ∧ bt + v ≠ 0 ∧ s.minimum_balance ≤ bt + v ∧
       store1 = ShardedMap.insertAt s.store idx_to toA (bt + v)) ∨
    (ShardedMap.get s.store toA = none ∧ store1 = s.store ∧ ibt = some v ∧
       s.minimum_balance ≤ v) := by
  unfold transferToLeg at h
  cases hget : ShardedMap.get s.store toA with
  | some p =>
    obtain ⟨idx_to, bt⟩ := p
    simp only [hget] at h
    cases htry : nzTryAdd tmax bt v with
    | error e => simp [htry] at h
    | ok nb =>
      simp only [htry] at h
      obtain ⟨rfl, hle, hnz⟩ := nzTryAdd_ok.mp htry
      split at h
      · have h2 := Except.ok.inj h
        rw [Prod.mk.injEq] at h2
        obtain ⟨rfl, rfl⟩ := h2
        left
        exact ⟨idx_to, bt, rfl, rfl, hle, hnz, by assumption, rfl⟩
      · simp at h
  | none =>
    simp only [hget] at h
    split at h
    · simp at h
    · split at h
      · simp at h
      · rename_i hge
        have h2 := Except.ok.inj h
        rw [Prod.mk.injEq] at h2
        obtain ⟨rfl, rfl⟩ := h2
        right
        exact ⟨rfl, rfl, rfl, by omega⟩

end Balances

namespace Balances

theorem wf_transfer {tmax : Nat} {b : Balances} {fromA toA v r : Nat} {b2 : Balances}
    (hwf : b.WF) (he : transfer tmax b fromA toA v = (.ok r, b2)) : b2.WF := by
  unfold transfer at he
  by_cases h0 : toA = 0
  · rw [if_pos h0] at he
    exact wf_burn hwf he
  · rw [if_neg h0] at he
    by_cases hft : fromA = toA
    · rw [if_pos hft, Prod.mk.injEq] at he
      obtain ⟨-, rfl⟩ := he
      exact hwf
    · rw [if_neg hft] at he
      obtain ⟨hnd, hlen, hsum, htot⟩ := hwf
      cases hget : ShardedMap.get b.store fromA with
      | none => simp [hget] at he
      | some p =>
        obtain ⟨idx_from, bf⟩ := p
        simp only [hget] at he
        have hbalf : bf ≤ smSum b.store := ShardedMap.value_le_smSum hget
        cases hfl : transferFromLeg b bf v with
        | error e => simp [hfl] at he
        | ok q =>
          obtain ⟨nbf, nu⟩ := q
          simp only [hfl] at he
          cases htl : transferToLeg tmax b toA v nbf.isSome with
          | error e => simp [htl] at he
          | ok q2 =>
            obtain ⟨store1, ibt⟩ := q2
            simp only [htl] at he
            rcases transferToLeg_ok htl with
              ⟨idx_to, bt, hgt, rfl, hleT, hnzT, hminT, rfl⟩ |
              ⟨hgtn, rfl, rfl, hminv⟩
            · -- to exists: store1 = insertAt b.store idx_to toA (bt + v), no fresh insert
              have hgf1 : ShardedMap.get
                  (ShardedMap.insertAt b.store idx_to toA (bt + v)) fromA =
                  some (idx_from, bf) := by
                rw [ShardedMap.get_insertAt_ne hft]
                exact hget
              have hk1 : keysOf (ShardedMap.insertAt b.store idx_to toA (bt + v)) =
                  keysOf b.store := ShardedMap.keysOf_insertAt_found (bt + v) hgt
              have hs1 := ShardedMap.smSum_insertAt_found (bt + v) hgt
              have hlen1 := ShardedMap.lenOK_insertAt_found (bt + v) hgt hlen
              have hnd1 : (keysOf (ShardedMap.insertAt b.store idx_to toA (bt + v))).Nodup := by
                rw [hk1]
                exact hnd
              rcases transferFromLeg_ok hfl with
                ⟨rfl, rfl, hvle, hnzF, hminF⟩ |
                ⟨rfl, rfl, hvle, hnzF, hltF, hubF⟩ |
                ⟨rfl, rfl, hbfv⟩
              · -- keep from
                unfold transferCommit at he
                have hga := ShardedMap.get_at_of_get hgf1
                simp only [hga, Option.getD_none, Prod.mk.injEq] at he
                obtain ⟨-, rfl⟩ := he
                have hs2 := ShardedMap.smSum_insertAt_found (bf - v) hgf1
                refine ⟨?_, ShardedMap.lenOK_insertAt_found _ hgf1 hlen1, ?_, htot⟩
                · dsimp only
                  rw [ShardedMap.keysOf_insertAt_found (bf - v) hgf1, hk1]
                  exact hnd
                · dsimp only
                  omega
              · -- dust sweep on from
                unfold transferCommit at he
                simp only [Option.getD_some, Prod.mk.injEq] at he
                obtain ⟨-, rfl⟩ := he
                have hs2 := ShardedMap.smSum_eraseAt_found hgf1
                have hsub := ShardedMap.entriesOf_eraseAt_sublist
                  (ShardedMap.insertAt b.store idx_to toA (bt + v)) idx_from fromA
                refine ⟨?_, ShardedMap.lenOK_eraseAt hlen1, ?_, htot⟩
                · dsimp only
                  exact (hsub.map Prod.fst).nodup hnd1
                · dsimp only
                  omega
              · -- from emptied exactly
                unfold transferCommit at he
                simp only [Option.getD_none, Prod.mk.injEq] at he
                obtain ⟨-, rfl⟩ := he
                have hs2 := ShardedMap.smSum_eraseAt_found hgf1
                have hsub := ShardedMap.entriesOf_eraseAt_sublist
                  (ShardedMap.insertAt b.store idx_to toA (bt + v)) idx_from fromA
                refine ⟨?_, ShardedMap.lenOK_eraseAt hlen1, ?_, htot⟩
                · dsimp only
                  exact (hsub.map Prod.fst).nodup hnd1
                · dsimp only
                  omega
            · -- to absent: store1 = b.store, insert_balance_to = some v
              have hfresh : toA ∉ keysOf b.store := ShardedMap.get_eq_none.mp hgtn
              rcases transferFromLeg_ok hfl with
                ⟨rfl, rfl, hvle, hnzF, hminF⟩ |
                ⟨rfl, rfl, hvle, hnzF, hltF, hubF⟩ |
                ⟨rfl, rfl, hbfv⟩
              · -- keep from, fresh insert of to
                unfold transferCommit at he
                have hga := ShardedMap.get_at_of_get hget
                simp only [hga] at he
                cases hins : ShardedMap.try_insert_new
                    (ShardedMap.insertAt b.store idx_from fromA (bf - v)) toA v with
                | error e => simp [hins] at he
                | ok q3 =>
                  obtain ⟨i2, store3⟩ := q3
                  simp only [hins, Option.getD_none, Prod.mk.injEq] at he
                  obtain ⟨-, rfl⟩ := he
                  obtain ⟨hfs, rfl⟩ := ShardedMap.try_insert_new_ok hins
                  have hk2 : keysOf (ShardedMap.insertAt b.store idx_from fromA (bf - v)) =
                      keysOf b.store := ShardedMap.keysOf_insertAt_found (bf - v) hget
                  have hfresh2 : toA ∉ keysOf
                      (ShardedMap.insertAt b.store idx_from fromA (bf - v)) := by
                    rw [hk2]; exact hfresh
                  have hlen2 := ShardedMap.lenOK_insertAt_found (bf - v) hget hlen
                  have hilt := ShardedMap.firstSpace_some_lt hfs
                  have hs2 := ShardedMap.smSum_insertAt_found (bf - v) hget
                  have hs3 := ShardedMap.smSum_insertAt_fresh (v := v) hfresh2 hilt
                  refine ⟨?_, ?_, ?_, htot⟩
                  · dsimp only
                    exact ShardedMap.keysOf_insertAt_fresh_nodup (hk2 ▸ hnd) hfresh2 hilt
                  · obtain ⟨sh0, hsh0, hsp⟩ := ShardedMap.firstSpace_some hfs
                    exact ShardedMap.lenOK_insertAt_space hsh0 hsp hlen2
                  · dsimp only
                    omega
              · -- dust sweep on from, fresh insert of to into from's shard
                unfold transferCommit at he
                cases hins : ShardedMap.try_insert_new_at
                    (ShardedMap.eraseAt b.store idx_from fromA) idx_from toA v with
                | error e => simp [hins] at he
                | ok store3 =>
                  simp only [hins, Option.getD_some, Prod.mk.injEq] at he
                  obtain ⟨-, rfl⟩ := he
                  obtain ⟨sh0, hsh0, hsp, rfl⟩ := ShardedMap.try_insert_new_at_ok hins
                  have hsubE := ShardedMap.entriesOf_eraseAt_sublist b.store idx_from fromA
                  have hnd2 : (keysOf (ShardedMap.eraseAt b.store idx_from fromA)).Nodup :=
                    (hsubE.map Prod.fst).nodup hnd
                  have hfresh2 : toA ∉ keysOf (ShardedMap.eraseAt b.store idx_from fromA) :=
                    fun hc => hfresh ((hsubE.map Prod.fst).subset hc)
                  have hilt : idx_from < (ShardedMap.eraseAt b.store idx_from fromA).length := by
                    rw [ShardedMap.length_eraseAt]
                    exact ShardedMap.get_some_lt hget
                  have hs2 := ShardedMap.smSum_eraseAt_found hget
                  have hs3 := ShardedMap.smSum_insertAt_fresh (v := v) hfresh2 hilt
                  refine ⟨?_, ?_, ?_, htot⟩
                  · dsimp only
                    exact ShardedMap.keysOf_insertAt_fresh_nodup hnd2 hfresh2 hilt
                  · exact ShardedMap.lenOK_insertAt_space hsh0 hsp
                      (ShardedMap.lenOK_eraseAt hlen)
                  · dsimp only
                    omega
              · -- from emptied exactly, fresh insert of to into from's shard
                unfold transferCommit at he
                cases hins : ShardedMap.try_insert_new_at
                    (ShardedMap.eraseAt b.store idx_from fromA) idx_from toA v with
                | error e => simp [hins] at he
                | ok store3 =>
                  simp only [hins, Option.getD_none, Prod.mk.injEq] at he
                  obtain ⟨-, rfl⟩ := he
                  obtain ⟨sh0, hsh0, hsp, rfl⟩ := ShardedMap.try_insert_new_at_ok hins
                  have hsubE := ShardedMap.entriesOf_eraseAt_sublist b.store idx_from fromA
                  have hnd2 : (keysOf (ShardedMap.eraseAt b.store idx_from fromA)).Nodup :=
                    (hsubE.map Prod.fst).nodup hnd
                  have hfresh2 : toA ∉ keysOf (ShardedMap.eraseAt b.store idx_from fromA) :=
                    fun hc => hfresh ((hsubE.map Prod.fst).subset hc)
                  have hilt : idx_from < (ShardedMap.eraseAt b.store idx_from fromA).length := by
                    rw [ShardedMap.length_eraseAt]
                    exact ShardedMap.get_some_lt hget
                  have hs2 := ShardedMap.smSum_eraseAt_found hget
                  have hs3 := ShardedMap.smSum_insertAt_fresh (v := v) hfresh2 hilt
                  refine ⟨?_, ?_, ?_, htot⟩
                  · dsimp only
                    exact ShardedMap.keysOf_insertAt_fresh_nodup hnd2 hfresh2 hilt
                  · exact ShardedMap.lenOK_insertAt_space hsh0 hsp
                      (ShardedMap.lenOK_eraseAt hlen)
                  · dsimp only
                    omega

end Balances

namespace Balances

theorem wf_transfer_all {tmax : Nat} {b : Balances} {fromA toA r : Nat} {b2 : Balances}
    (hwf : b.WF) (he : transfer_all tmax b fromA toA = (.ok r, b2)) : b2.WF := by
  obtain ⟨hnd, hlen, hsum, htot⟩ := hwf
  unfold transfer_all at he
  cases hget : ShardedMap.get b.store fromA with
  | none =>
    simp only [hget, Prod.mk.injEq] at he
    obtain ⟨-, rfl⟩ := he
    exact ⟨hnd, hlen, hsum, htot⟩
  | some p =>
    obtain ⟨idx_from, bf⟩ := p
    simp only [hget] at he
    by_cases hft : fromA = toA
    · rw [if_pos hft, Prod.mk.injEq] at he
      obtain ⟨-, rfl⟩ := he
      exact ⟨hnd, hlen, hsum, htot⟩
    · rw [if_neg hft] at he
      cases hgt : ShardedMap.get b.store toA with
      | some p2 =>
        obtain ⟨idx_to, bt⟩ := p2
        simp only [hgt] at he
        cases htry : nzTryAdd tmax bt bf with
        | error e => simp [htry] at he
        | ok nb =>
          simp only [htry] at he
          obtain ⟨rfl, hle, hnz⟩ := nzTryAdd_ok.mp htry
          split at he
          · have hgf1 : ShardedMap.get
                (ShardedMap.insertAt b.store idx_to toA (bt + bf)) fromA =
                some (idx_from, bf) := by
              rw [ShardedMap.get_insertAt_ne hft]
              exact hget
            have hk1 : keysOf (ShardedMap.insertAt b.store idx_to toA (bt + bf)) =
                keysOf b.store := ShardedMap.keysOf_insertAt_found (bt + bf) hgt
            have hnd1 : (keysOf (ShardedMap.insertAt b.store idx_to toA (bt + bf))).Nodup := by
              rw [hk1]
              exact hnd
            have hs1 := ShardedMap.smSum_insertAt_found (bt + bf) hgt
            have hlen1 := ShardedMap.lenOK_insertAt_found (bt + bf) hgt hlen
            unfold transferAllCommit ShardedMap.remove_at at he
            have hga := ShardedMap.get_at_of_get hgf1
            simp only [hga, Prod.mk.injEq] at he
            obtain ⟨-, rfl⟩ := he
            have hs2 := ShardedMap.smSum_eraseAt_found hgf1
            have hsub := ShardedMap.entriesOf_eraseAt_sublist
              (ShardedMap.insertAt b.store idx_to toA (bt + bf)) idx_from fromA
            refine ⟨(hsub.map Prod.fst).nodup hnd1, ShardedMap.lenOK_eraseAt hlen1, ?_, htot⟩
            dsimp only
            omega
          · simp at he
      | none =>
        simp only [hgt] at he
        split at he
        · simp at he
        · have hfresh : toA ∉ keysOf b.store := ShardedMap.get_eq_none.mp hgt
          unfold transferAllCommit ShardedMap.remove_at at he
          have hga := ShardedMap.get_at_of_get hget
          simp only [hga] at he
          cases hins : ShardedMap.try_insert_new_at
              (ShardedMap.eraseAt b.store idx_from fromA) idx_from toA bf with
          | error e => simp [hins] at he
          | ok store3 =>
            simp only [hins, Prod.mk.injEq] at he
            obtain ⟨-, rfl⟩ := he
            obtain ⟨sh0, hsh0, hsp, rfl⟩ := ShardedMap.try_insert_new_at_ok hins
            have hsubE := ShardedMap.entriesOf_eraseAt_sublist b.store idx_from fromA
            have hnd2 : (keysOf (ShardedMap.eraseAt b.store idx_from fromA)).Nodup :=
              (hsubE.map Prod.fst).nodup hnd
            have hfresh2 : toA ∉ keysOf (ShardedMap.eraseAt b.store idx_from fromA) :=
              fun hc => hfresh ((hsubE.map Prod.fst).subset hc)
            have hilt : idx_from < (ShardedMap.eraseAt b.store idx_from fromA).length := by
              rw [ShardedMap.length_eraseAt]
              exact ShardedMap.get_some_lt hget
            have hs2 := ShardedMap.smSum_eraseAt_found hget
            have hs3 := ShardedMap.smSum_insertAt_fresh (v := bf) hfresh2 hilt
            refine ⟨ShardedMap.keysOf_insertAt_fresh_nodup hnd2 hfresh2 hilt, ?_, ?_, htot⟩
            · exact ShardedMap.lenOK_insertAt_space hsh0 hsp (ShardedMap.lenOK_eraseAt hlen)
            · dsimp only
              omega

end Balances

/-- Every state reachable through the public `Balances` operations is
well-formed: globally unique keys, hashbrown length bounds, the
conservation equation, and the `U256` bound on the total supply. -/
theorem reach_wf {tmax : Nat} {allow : Bool} {b : Balances}
    (h : Reach tmax allow b) : b.WF := by
  induction h with
  | init caps minB b he => exact Balances.wf_try_new he
  | mint b a v r b2 hr ha hv he ih => exact Balances.wf_mint ih he
  | burn b a v r b2 hr ha hv he ih => exact Balances.wf_burn ih he
  | burn_all b a r b2 hr ha he ih => exact Balances.wf_burn_all ih he
  | burn_unused b r b2 hr he ih => exact Balances.wf_burn_unused ih he
  | transfer b fromA toA v r b2 hr ha hv he ih => exact Balances.wf_transfer ih he
  | transfer_all b fromA toA r b2 hr ha hv he ih => exact Balances.wf_transfer_all ih he
  | alloc b r b2 hr he ih => exact Balances.wf_allocate_next_shard ih he
  | append b c r b2 hr he ih => exact Balances.wf_try_append_shard ih he
  | set_min b m ha hr ih => exact Balances.wf_set_minimum_balance ih

/-! ## Claim C1 -/

/-- C1: for every Balances state reachable from `Balances::try_new` by the
public operations (mint, burn, burn_all, burn_unused, transfer,
transfer_all, allocate_next_shard, try_append_shard, set_minimum_balance),
the sum of all stored balance amounts plus the `unused` field equals the
`total` field (total supply). -/
theorem C1_supply_conservation (tmax : Nat) (b : Balances)
    (h : Reach tmax true b) : smSum b.store + b.unused = b.total :=
  (reach_wf h).2.2.1

/-- The state produced by `Balances::try_new([7], 0)`. -/
def bFresh : Balances := ⟨0, [⟨[], 7, false⟩], 0, 0⟩

theorem C1_supply_conservation_witness :
    Reach (2 ^ 80 - 1) true bFresh ∧
    smSum bFresh.store + bFresh.unused = bFresh.total := by
  have hr : Reach (2 ^ 80 - 1) true bFresh := Reach.init [7] 0 bFresh (by decide)
  exact ⟨hr, C1_supply_conservation _ _ hr⟩

/-! ## Claim C2 -/

theorem Balances.transferCommit_no_err {s : Balances} {idx_from fromA toA : Nat}
    {nbf nu : Option Nat} {store1 : SMap Nat Nat} {ibt : Option Nat}
    {e : BalancesError} {b2 : Balances} :
    Balances.transferCommit s idx_from fromA toA nbf nu store1 ibt ≠ (.err e, b2) := by
  intro hcon
  unfold Balances.transferCommit at hcon
  cases nbf with
  | none =>
    cases ibt with
    | some bt =>
      cases hins : ShardedMap.try_insert_new_at
          (ShardedMap.eraseAt store1 idx_from fromA) idx_from toA bt with
      | error e2 => simp [hins] at hcon
      | ok s3 => simp [hins] at hcon
    | none => simp at hcon
  | some w =>
    cases hga : ShardedMap.get_at store1 idx_from fromA with
    | none => simp [hga] at hcon
    | some u =>
      cases ibt with
      | some bt =>
        cases hins : ShardedMap.try_insert_new
            (ShardedMap.insertAt store1 idx_from fromA w) toA bt with
        | error e2 => simp [hga, hins] at hcon
        | ok q => simp [hga, hins] at hcon
      | none => simp [hga] at hcon

/-- C2: a `transfer(from, to, value)` with non-zero `to` and `from ≠ to`
that returns an error leaves the entire state (every balance entry,
total supply, unused) exactly as before the call: whichever leg's check
fails, nothing has been mutated. -/
theorem C2_transfer_error_atomic (tmax : Nat) (s : Balances)
    (fromA toA v : Nat) (e : BalancesError) (s2 : Balances)
    (hto : toA ≠ 0) (hft : fromA ≠ toA)
    (he : Balances.transfer tmax s fromA toA v = (.err e, s2)) : s2 = s := by
  unfold Balances.transfer at he
  rw [if_neg hto, if_neg hft] at he
  cases hget : ShardedMap.get s.store fromA with
  | none =>
    simp only [hget, Prod.mk.injEq] at he
    exact he.2.symm
  | some p =>
    obtain ⟨i, bf⟩ := p
    simp only [hget] at he
    cases hfl : Balances.transferFromLeg s bf v with
    | error e2 =>
      simp only [hfl, Prod.mk.injEq] at he
      exact he.2.symm
    | ok q =>
      obtain ⟨nbf, nu⟩ := q
      simp only [hfl] at he
      cases htl : Balances.transferToLeg tmax s toA v nbf.isSome with
      | error e2 =>
        simp only [htl, Prod.mk.injEq] at he
        exact he.2.symm
      | ok q2 =>
        obtain ⟨store1, ibt⟩ := q2
        simp only [htl] at he
        exact absurd he Balances.transferCommit_no_err

/-- An allocated single-shard Balances state with no entries. -/
def bEmpty : Balances := ⟨0, [⟨[], 7, true⟩], 0, 0⟩

theorem C2_transfer_error_atomic_witness :
    (2 : Nat) ≠ 0 ∧ (1 : Nat) ≠ 2 ∧
    Balances.transfer (2 ^ 80 - 1) bEmpty 1 2 5 = (.err .insufficient, bEmpty) ∧
    bEmpty = bEmpty :=
  ⟨by decide, by decide, by decide,
   C2_transfer_error_atomic (2 ^ 80 - 1) bEmpty 1 2 5 .insufficient bEmpty
     (by decide) (by decide) (by decide)⟩

/-! ## Claim C3 -/

/-- C3: `burn(account, value)` fails with Insufficient when the account has
no entry or its balance is below `value`, changing nothing; on success with
balance `bb ≥ value`: if `bb - value = 0` the entry is removed; if
`0 < bb - value < minimum_balance` the entry is removed and exactly
`bb - value` is added to `unused`; if `bb - value ≥ minimum_balance` the
entry is set to `bb - value`; in every success case the total supply
decreases by exactly `value` and that subtraction never underflows
(`value ≤ total`, guaranteed by the accounting invariant `WF`, which holds
in every API-reachable state by `reach_wf`). -/
theorem C3_burn_cases (s : Balances) (acc v : Nat) (hwf : s.WF) (hv : 0 < v) :
    ((∀ p, ShardedMap.get s.store acc = some p → p.2 < v) →
       Balances.burn s acc v = (.err .insufficient, s)) ∧
    (∀ idx bb, ShardedMap.get s.store acc = some (idx, bb) → v ≤ bb →
       v ≤ s.total ∧
       (bb = v → ∃ s2, Balances.burn s acc v = (.ok 0, s2) ∧
          ShardedMap.get s2.store acc = none ∧ s2.unused = s.unused ∧
          s2.total + v = s.total) ∧
       (v < bb → bb - v < s.minimum_balance → ∃ s2,
          Balances.burn s acc v = (.ok 0, s2) ∧
          ShardedMap.get s2.store acc = none ∧
          s2.unused = s.unused + (bb - v) ∧ s2.total + v = s.total) ∧
       (v < bb → s.minimum_balance ≤ bb - v → ∃ s2,
          Balances.burn s acc v = (.ok 0, s2) ∧
          ShardedMap.get s2.store acc = some (idx, bb - v) ∧
          s2.unused = s.unused ∧ s2.total + v = s.total)) := by
  obtain ⟨hnd, hlen, hsum, htot⟩ := hwf
  constructor
  · intro hlt
    unfold Balances.burn
    cases hget : ShardedMap.get s.store acc with
    | none => simp only [hget]
    | some p =>
      obtain ⟨i, bb⟩ := p
      have hblt : bb < v := hlt (i, bb) hget
      have hsub : nzTrySub bb v = .error .underflow := by
        unfold nzTrySub
        rw [if_neg (by omega)]
      simp only [hget, hsub]
  · intro idx bb hget hvbb
    have hble : bb ≤ smSum s.store := ShardedMap.value_le_smSum hget
    have hvt : v ≤ s.total := by omega
    have huc : uCheckedSub s.total v = some (s.total - v) :=
      uCheckedSub_some.mpr ⟨hvt, rfl⟩
    refine ⟨hvt, ?_, ?_, ?_⟩
    · intro hbv
      have hsub : nzTrySub bb v = .error .zero := nzTrySub_zero.mpr ⟨hvbb, by omega⟩
      refine ⟨{ s with store := ShardedMap.eraseAt s.store idx acc,
                       total := s.total - v }, ?_, ?_, rfl, by dsimp only; omega⟩
      · unfold Balances.burn Balances.burnFinish
        simp only [hget, hsub]
        simp only [huc]
      · exact ShardedMap.get_eraseAt_found hnd hget
    · intro hlt1 hlt2
      have hsub : nzTrySub bb v = .ok (bb - v) := nzTrySub_ok.mpr ⟨hvbb, rfl, by omega⟩
      have hua : uCheckedAdd s.unused (bb - v) = some (s.unused + (bb - v)) :=
        uCheckedAdd_some.mpr ⟨rfl, by omega⟩
      refine ⟨{ s with unused := s.unused + (bb - v),
                       store := ShardedMap.eraseAt s.store idx acc,
                       total := s.total - v }, ?_, ?_, rfl, by dsimp only; omega⟩
      · unfold Balances.burn Balances.burnFinish
        simp only [hget, hsub]
        rw [if_neg (by omega)]
        simp only [hua]
        simp only [huc]
      · exact ShardedMap.get_eraseAt_found hnd hget
    · intro hlt1 hge
      have hsub : nzTrySub bb v = .ok (bb - v) := nzTrySub_ok.mpr ⟨hvbb, rfl, by omega⟩
      refine ⟨{ s with store := ShardedMap.insertAt s.store idx acc (bb - v),
                       total := s.total - v }, ?_, ?_, rfl, by dsimp only; omega⟩
      · unfold Balances.burn Balances.burnFinish
        simp only [hget, hsub]
        rw [if_pos hge]
        simp only [huc]
      · exact ShardedMap.get_insertAt_found (bb - v) hget

/-- A one-account state: minimum balance 0, account 1 holds 5. -/
def bOne : Balances := ⟨0, [⟨[(1, 5)], 7, true⟩], 5, 0⟩

theorem C3_burn_cases_witness :
    bOne.WF ∧ (0 : Nat) < 2 ∧
    (∃ s2, Balances.burn bOne 1 2 = (.ok 0, s2) ∧
       ShardedMap.get s2.store 1 = some (0, 5 - 2) ∧
       s2.unused = bOne.unused ∧ s2.total + 2 = bOne.total) :=
  ⟨by unfold Balances.WF; decide, by decide,
   ((C3_burn_cases bOne 1 2 (by unfold Balances.WF; decide) (by decide)).2 0 5 (by decide)
     (by decide)).2.2.2 (by decide) (by decide)⟩

/-! ## Claim C10 -/

theorem ShardedMap.fresh_insert_fails {m2 : SMap K V}
    (hsh : ∀ sh ∈ m2, sh.alloc = false ∧ sh.entries = []) (k : K) (v : V) :
    ShardedMap.try_insert m2 k v = .error .capacityOverflow := by
  have hget : ShardedMap.get m2 k = none := by
    rw [ShardedMap.get_eq_none]
    intro hc
    rw [keysOf, ShardedMap.entriesOf_eq_nil fun sh h => (hsh sh h).2] at hc
    simp at hc
  have hfs : ShardedMap.firstSpace m2 = none :=
    ShardedMap.firstSpace_of_unalloc fun sh h => by simp [Shard.capacity, (hsh sh h).1]
  unfold ShardedMap.try_insert
  simp [hget, hfs]

theorem ShardedMap.fresh_capacity_zero {m2 : SMap K V}
    (hsh : ∀ sh ∈ m2, sh.alloc = false) :
    ShardedMap.capacity m2 = 0 := by
  unfold ShardedMap.capacity
  rw [List.sum_eq_zero]
  intro x hx
  obtain ⟨sh, hsh2, rfl⟩ := List.mem_map.mp hx
  simp [Shard.capacity, hsh sh hsh2]

/-- C10: immediately after `ShardedMap::try_new` (and hence after
`Balances::try_new` / `Allowances::try_new`) every shard is unallocated:
the map's live capacity is 0, every `try_insert` fails with
CapacityOverflow, and this holds for any state whose shards are all
unallocated and empty, i.e. an insert can succeed only after
`alloc_next_shard` has realized a shard. -/
theorem C10_fresh_map_full (caps : List Nat) (m : SMap Nat Nat)
    (h : ShardedMap.try_new caps = .ok m) :
    ShardedMap.capacity m = 0 ∧
    (∀ k v : Nat, ShardedMap.try_insert m k v = .error .capacityOverflow) ∧
    (∀ m2 : SMap Nat Nat, (∀ sh ∈ m2, sh.alloc = false ∧ sh.entries = []) →
       ∀ k v : Nat, ShardedMap.try_insert m2 k v = .error .capacityOverflow) ∧
    (∀ minB : Nat, ∀ b : Balances, Balances.try_new caps minB = .ok b →
       ShardedMap.capacity b.store = 0 ∧
       ∀ k v : Nat, ShardedMap.try_insert b.store k v = .error .capacityOverflow) ∧
    (∀ p : Nat, ∀ a : Allowances, Allowances.try_new caps p = .ok a →
       ShardedMap.capacity a.store = 0 ∧
       ∀ k v : Nat × Nat, ShardedMap.try_insert a.store k v = .error .capacityOverflow) := by
  have hshape := ShardedMap.try_new_ok_shape h
  refine ⟨ShardedMap.fresh_capacity_zero fun sh hs => (hshape sh hs).2,
    fun k v => ShardedMap.fresh_insert_fails
      (fun sh hs => ⟨(hshape sh hs).2, (hshape sh hs).1⟩) k v,
    fun m2 hm2 k v => ShardedMap.fresh_insert_fails hm2 k v, ?_, ?_⟩
  · intro minB b hb
    unfold Balances.try_new at hb
    cases hm : ShardedMap.try_new (K := Nat) (V := Nat) caps with
    | error e => rw [hm] at hb; exact absurd hb (by simp)
    | ok store =>
      rw [hm] at hb
      obtain rfl : _ = b := by injection hb
      have hshape2 := ShardedMap.try_new_ok_shape hm
      exact ⟨ShardedMap.fresh_capacity_zero fun sh hs => (hshape2 sh hs).2,
        fun k v => ShardedMap.fresh_insert_fails
          (fun sh hs => ⟨(hshape2 sh hs).2, (hshape2 sh hs).1⟩) k v⟩
  · intro p a ha
    unfold Allowances.try_new at ha
    cases hm : ShardedMap.try_new (K := Nat × Nat) (V := Nat × Nat) caps with
    | error e => rw [hm] at ha; exact absurd ha (by simp)
    | ok store =>
      rw [hm] at ha
      obtain rfl : _ = a := by injection ha
      have hshape2 := ShardedMap.try_new_ok_shape hm
      exact ⟨ShardedMap.fresh_capacity_zero fun sh hs => (hshape2 sh hs).2,
        fun k v => ShardedMap.fresh_insert_fails
          (fun sh hs => ⟨(hshape2 sh hs).2, (hshape2 sh hs).1⟩) k v⟩

theorem C10_fresh_map_full_witness :
    ShardedMap.try_new (K := Nat) (V := Nat) [7] = .ok [⟨[], 7, false⟩] ∧
    ShardedMap.capacity ([⟨[], 7, false⟩] : SMap Nat Nat) = 0 :=
  ⟨by decide, (C10_fresh_map_full [7] [⟨[], 7, false⟩] (by decide)).1⟩

/-! ## Claim C5 -/

/-- C5, as stated, is false: right after `try_new([7])` the shard is
unallocated (`HashMap::new()` has capacity 0), so the very first
`try_insert` fails with CapacityOverflow; no 7 inserts can succeed before
`alloc_next_shard`. -/
theorem C5_counterexample :
    ShardedMap.try_new (K := Nat) (V := Nat) [7] = .ok [⟨[], 7, false⟩] ∧
    ShardedMap.try_insert ([⟨[], 7, false⟩] : SMap Nat Nat) 1 1 =
      .error .capacityOverflow := by
  decide

/-- Iterated `try_insert` of a list of keys, all with the same value. -/
def insertAll (m : SMap K V) (ks : List K) (v : V) :
    Except ShardedMap.Error (SMap K V) :=
  match ks with
  | [] => .ok m
  | k :: t =>
    match ShardedMap.try_insert m k v with
    | .error e => .error e
    | .ok (_, _, m2) => insertAll m2 t v

theorem insertAll_single {cap : Nat} (v : Nat) :
    ∀ (ks : List Nat) (es : List (Nat × Nat)),
    (es.map Prod.fst ++ ks).Nodup → es.length + ks.length ≤ cap →
    insertAll [⟨es, cap, true⟩] ks v =
      .ok [⟨es ++ ks.map (fun k => (k, v)), cap, true⟩] := by
  intro ks
  induction ks with
  | nil =>
    intro es h1 h2
    simp [insertAll]
  | cons k t ih =>
    intro es h1 h2
    have hk : k ∉ es.map Prod.fst := by
      intro hc
      exact List.disjoint_of_nodup_append h1 hc (List.mem_cons_self k t)
    have hlk : lookupA es k = none := lookupA_eq_none_keys.mpr hk
    have hget : ShardedMap.get [⟨es, cap, true⟩] k = none := by
      simp [ShardedMap.get, hlk]
    have hsp : es.length < cap := by
      simp only [List.length_cons] at h2
      omega
    have hfs : ShardedMap.firstSpace ([⟨es, cap, true⟩] : SMap Nat Nat) = some 0 := by
      simp [ShardedMap.firstSpace, Shard.capacity, hsp]
    unfold insertAll ShardedMap.try_insert
    simp only [hget, hfs]
    have hins : ShardedMap.insertAt ([⟨es, cap, true⟩] : SMap Nat Nat) 0 k v =
        [⟨es ++ [(k, v)], cap, true⟩] := by
      simp [ShardedMap.insertAt, insertA_of_none v hlk]
    rw [hins]
    have hrec := ih (es ++ [(k, v)])
      (by simpa [List.append_assoc] using h1)
      (by simp at h2 ⊢; omega)
    rw [hrec]
    simp

/-- C5 amended: `try_new([0])` fails InvalidCapacity and `try_new([7])`
succeeds, but the freshly constructed map must first have its shard
realized by `alloc_next_shard`; after that one allocation, inserting 7
distinct keys yields 7 successes and an 8th insert of a new key fails
with CapacityOverflow. -/
theorem C5_amended (ks : List Nat) (k2 v : Nat)
    (h1 : ks.Nodup) (h2 : ks.length = 7) (h3 : k2 ∉ ks) :
    ShardedMap.try_new (K := Nat) (V := Nat) [0] = .error .invalidCapacity ∧
    ShardedMap.try_new (K := Nat) (V := Nat) [7] = .ok [⟨[], 7, false⟩] ∧
    (ShardedMap.alloc_next_shard ([⟨[], 7, false⟩] : SMap Nat Nat)).2 =
      [⟨[], 7, true⟩] ∧
    insertAll [⟨[], 7, true⟩] ks v = .ok [⟨ks.map (fun k => (k, v)), 7, true⟩] ∧
    ShardedMap.try_insert [⟨ks.map (fun k => (k, v)), 7, true⟩] k2 v =
      .error .capacityOverflow := by
  refine ⟨by decide, by decide, by decide, ?_, ?_⟩
  · have := @insertAll_single 7 v ks [] (by simpa using h1) (by simp [h2])
    simpa using this
  · have hk2 : k2 ∉ (ks.map fun k => (k, v)).map Prod.fst := by
      simp only [List.map_map]
      simpa [Function.comp] using h3
    have hget : ShardedMap.get [⟨ks.map (fun k => (k, v)), 7, true⟩] k2 = none := by
      simp [ShardedMap.get, lookupA_eq_none_keys.mpr hk2]
    have hfull : ¬ ((ks.map fun k => (k, v)).length < (7 : Nat)) := by
      simp only [List.length_map, h2]
      omega
    have hfs : ShardedMap.firstSpace
        ([⟨ks.map (fun k => (k, v)), 7, true⟩] : SMap Nat Nat) = none := by
      simp [ShardedMap.firstSpace, Shard.capacity, h2]
    unfold ShardedMap.try_insert
    simp [hget, hfs]

theorem C5_amended_witness :
    ShardedMap.try_new (K := Nat) (V := Nat) [0] = .error .invalidCapacity ∧
    ShardedMap.try_new (K := Nat) (V := Nat) [7] = .ok [⟨[], 7, false⟩] ∧
    (ShardedMap.alloc_next_shard ([⟨[], 7, false⟩] : SMap Nat Nat)).2 =
      [⟨[], 7, true⟩] ∧
    insertAll [⟨[], 7, true⟩] [1, 2, 3, 4, 5, 6, 7] 1 =
      .ok [⟨[1, 2, 3, 4, 5, 6, 7].map (fun k => (k, 1)), 7, true⟩] ∧
    ShardedMap.try_insert [⟨[1, 2, 3, 4, 5, 6, 7].map (fun k => (k, 1)), 7, true⟩] 8 1 =
      .error .capacityOverflow :=
  C5_amended [1, 2, 3, 4, 5, 6, 7] 8 1 (by decide) (by decide) (by decide)

/-! ## Claim C6 -/

/-- C6: on an Allowances state whose `(owner, spender)` entry stores the
sentinel MAX amount (`amax`), `decrease` succeeds for every non-zero value,
leaves the stored amount equal to the sentinel, and sets the stored expiry
to `current_block + expiry_period` with u32 saturating addition. (The
hypothesis `owner ≠ spender` matches every reachable state: entries with
`owner = spender` are never stored, see the C7 development.) -/
theorem C6_decrease_sentinel (amax : Nat) (s : Allowances)
    (owner spender v bn idx e0 : Nat)
    (hos : owner ≠ spender) (_hv : 0 < v)
    (hget : ShardedMap.get s.store (owner, spender) = some (idx, (amax, e0))) :
    ∃ s2, Allowances.decrease amax s owner spender v bn = (.ok none, s2) ∧
      ShardedMap.get s2.store (owner, spender) =
        some (idx, (amax, min (s.expiry_period + bn) U32MAX)) ∧
      s2.expiry_period = s.expiry_period := by
  refine ⟨{ s with store := (ShardedMap.insertAt s.store idx (owner, spender)
      (amax, min (s.expiry_period + bn) U32MAX)) }, ?_, ?_, rfl⟩
  · unfold Allowances.decrease
    rw [if_neg hos]
    simp only [hget, if_true]
    rfl
  · exact ShardedMap.get_insertAt_found _ hget

/-- An Allowances state where `(1, 2)` holds the 72-bit MAX sentinel. -/
def aMax : Allowances := ⟨100, [⟨[((1, 2), (2 ^ 72 - 1, 0))], 7, true⟩]⟩

theorem C6_decrease_sentinel_witness :
    (1 : Nat) ≠ 2 ∧ (0 : Nat) < 5 ∧
    ShardedMap.get aMax.store (1, 2) = some (0, (2 ^ 72 - 1, 0)) ∧
    (∃ s2, Allowances.decrease (2 ^ 72 - 1) aMax 1 2 5 100 = (.ok none, s2) ∧
      ShardedMap.get s2.store (1, 2) =
        some (0, (2 ^ 72 - 1, min (aMax.expiry_period + 100) U32MAX)) ∧
      s2.expiry_period = aMax.expiry_period) :=
  ⟨by decide, by decide, by decide,
   C6_decrease_sentinel (2 ^ 72 - 1) aMax 1 2 5 100 0 0 (by decide) (by decide)
     (by decide)⟩

/-! ## Claims C8 and C9 -/

theorem leVal_encode : ∀ (n v : Nat),
    leVal ((List.range n).map fun i => byteAt v i) = v % 256 ^ n := by
  intro n
  induction n with
  | zero => intro v; simp [leVal, Nat.mod_one]
  | succ n ih =>
    intro v
    rw [List.range_succ_eq_map]
    simp only [List.map_cons, List.map_map]
    have hmap : (List.range n).map ((fun i => byteAt v i) ∘ (· + 1)) =
        (List.range n).map fun i => byteAt (v / 256) i := by
      apply List.map_congr_left
      intro i hi
      simp only [Function.comp, byteAt]
      rw [pow_succ, Nat.mul_comm, ← Nat.div_div_eq_div_mul]
    rw [hmap]
    simp only [leVal, ih (v / 256)]
    have : byteAt v 0 = v % 256 := by simp [byteAt]
    rw [this, pow_succ, Nat.mul_comm (256 ^ n) 256, Nat.mod_mul]

theorem lt_base256 {bits v : Nat} (hv : v < 2 ^ bits) : v < 256 ^ n_bytes bits := by
  have h8 : bits ≤ 8 * n_bytes bits := by
    unfold n_bytes
    omega
  calc v < 2 ^ bits := hv
    _ ≤ 2 ^ (8 * n_bytes bits) := Nat.pow_le_pow_right (by norm_num) h8
    _ = 256 ^ n_bytes bits := by rw [Nat.pow_mul]

/-- C8: for every value of a `CustomUint<BITS, _>` (i.e. `v < 2 ^ bits`),
`encode` produces exactly `ceil(bits / 8)` little-endian bytes with no
padding and no length prefix, and `decode (encode v) = v`. -/
theorem C8_codec_roundtrip (bits v : Nat) (hv : v < 2 ^ bits) :
    (cuEncode bits v).length = n_bytes bits ∧
    cuDecode bits (cuEncode bits v) = some v := by
  have hlen : (cuEncode bits v).length = n_bytes bits := by simp [cuEncode]
  refine ⟨hlen, ?_⟩
  unfold cuDecode
  rw [hlen, if_neg (lt_irrefl _)]
  rw [List.take_of_length_le (le_of_eq hlen)]
  unfold cuEncode
  rw [leVal_encode, Nat.mod_eq_of_lt (lt_base256 hv), if_pos hv]

theorem C8_codec_roundtrip_witness :
    (123456789 : Nat) < 2 ^ 72 ∧
    (cuEncode 72 123456789).length = n_bytes 72 ∧
    cuDecode 72 (cuEncode 72 123456789) = some 123456789 :=
  ⟨by decide, C8_codec_roundtrip 72 123456789 (by decide)⟩

/-- C9 as stated is false: resizing from 16 bits to 9 bits targets a width
with at least as many bytes (both are 2 bytes), yet the value 512 (which
fits 16 bits but needs a 10th bit) fails with Overflow instead of being
preserved. -/
theorem C9_counterexample :
    n_bytes 16 ≤ n_bytes 9 ∧ (512 : Nat) < 2 ^ 16 ∧ try_resize 16 9 512 = none := by
  decide

theorem n_bytes_mono {b1 b2 : Nat} (h : b1 ≤ b2) : n_bytes b1 ≤ n_bytes b2 :=
  Nat.div_le_div_right (by omega)

/-- C9 amended: `try_resize` to a width with at least as many BITS always
succeeds and preserves the value; narrowing to fewer bytes fails with
Overflow if any truncated high byte of the value is non-zero; and every
value representable in the original width round-trips exactly through
widen-then-narrow. -/
theorem C9_resize (b1 b2 v : Nat) (hv : v < 2 ^ b1) :
    (b1 ≤ b2 → try_resize b1 b2 v = some v) ∧
    (n_bytes b2 < n_bytes b1 →
       (∃ i, n_bytes b2 ≤ i ∧ i < n_bytes b1 ∧ byteAt v i ≠ 0) →
       try_resize b1 b2 v = none) ∧
    (b1 ≤ b2 → (try_resize b1 b2 v).bind (fun w => try_resize b2 b1 w) = some v) := by
  have hwide : ∀ c1 c2 w : Nat, w < 2 ^ c1 → c1 ≤ c2 → try_resize c1 c2 w = some w := by
    intro c1 c2 w hw hc
    have hnb : n_bytes c1 ≤ n_bytes c2 := n_bytes_mono hc
    have h1 : ¬ (n_bytes c2 < n_bytes c1) := Nat.not_lt.mpr hnb
    simp only [try_resize, decide_eq_false h1, Bool.false_and, Bool.false_eq_true,
      if_false, Nat.min_eq_left hnb, leVal_encode]
    rw [Nat.mod_eq_of_lt (lt_base256 hw),
      if_pos (lt_of_lt_of_le hw (Nat.pow_le_pow_right (by norm_num) hc))]
  refine ⟨fun hb => hwide b1 b2 v hv hb, ?_, ?_⟩
  · rintro hlt ⟨i, hi1, hi2, hi3⟩
    have hc1 : decide (n_bytes b2 < n_bytes b1) = true := decide_eq_true hlt
    have hc2 : (List.range' (n_bytes b2) (n_bytes b1 - n_bytes b2)).any
        (fun j => byteAt v j != 0) = true := by
      rw [List.any_eq_true]
      refine ⟨i, ?_, by simpa using hi3⟩
      rw [List.mem_range'_1]
      omega
    simp [try_resize, hc1, hc2]
  · intro hb
    rw [hwide b1 b2 v hv hb]
    show try_resize b2 b1 v = some v
    have hnb : n_bytes b1 ≤ n_bytes b2 := n_bytes_mono hb
    have hc2 : (List.range' (n_bytes b1) (n_bytes b2 - n_bytes b1)).any
        (fun j => byteAt v j != 0) = false := by
      rw [List.any_eq_false]
      intro i hi
      rw [List.mem_range'_1] at hi
      have hvi : v < 256 ^ i := lt_of_lt_of_le (lt_base256 hv)
        (Nat.pow_le_pow_right (by norm_num) (by omega))
      simp [byteAt, Nat.div_eq_of_lt hvi]
    simp only [try_resize, hc2, Bool.and_false, Bool.false_eq_true, if_false,
      Nat.min_eq_right hnb, leVal_encode]
    rw [Nat.mod_eq_of_lt (lt_base256 hv), if_pos hv]

theorem C9_resize_witness :
    (300 : Nat) < 2 ^ 9 ∧
    (9 ≤ 72 → try_resize 9 72 300 = some 300) ∧
    (9 ≤ 72 → (try_resize 9 72 300).bind (fun w => try_resize 72 9 w) = some 300) :=
  ⟨by decide, (C9_resize 9 72 300 (by decide)).1, (C9_resize 9 72 300 (by decide)).2.2⟩

/-! ## Claim C7: invariants of stored entries -/

namespace Balances

/-- Every stored balance amount is at least the current minimum balance. -/
def MinInv (b : Balances) : Prop :=
  ∀ p ∈ entriesOf b.store, b.minimum_balance ≤ p.2

theorem minInv_try_new {caps : List Nat} {minB : Nat} {b : Balances}
    (h : try_new caps minB = .ok b) : b.MinInv := by
  unfold try_new at h
  cases hm : ShardedMap.try_new (K := Nat) (V := Nat) caps with
  | error e => rw [hm] at h; exact absurd h (by simp)
  | ok store =>
    rw [hm] at h
    obtain rfl : _ = b := by injection h
    intro p hp
    rw [ShardedMap.entriesOf_eq_nil
      (fun sh hsh => (ShardedMap.try_new_ok_shape hm sh hsh).1)] at hp
    simp at hp

theorem minInv_mint {tmax : Nat} {b : Balances} {a v r : Nat} {b2 : Balances}
    (hpre : b.MinInv) (he : mint tmax b a v = (.ok r, b2)) : b2.MinInv := by
  unfold mint at he
  cases hadd : uCheckedAdd b.total v with
  | none => simp [hadd] at he
  | some new_total =>
    simp only [hadd] at he
    cases hget : ShardedMap.get b.store a with
    | some p =>
      obtain ⟨idx, bal⟩ := p
      simp only [hget] at he
      cases htry : nzTryAdd tmax bal v with
      | error e => simp [htry] at he
      | ok nb =>
        simp only [htry] at he
        split at he
        · rename_i hmin
          rw [Prod.mk.injEq] at he
          obtain ⟨-, rfl⟩ := he
          intro p hp
          rcases ShardedMap.mem_entriesOf_insertAt hp with h2 | h2
          · exact hpre p h2
          · subst h2
            exact hmin
        · simp at he
    | none =>
      simp only [hget] at he
      split at he
      · simp at he
      · rename_i hge
        cases hins : ShardedMap.try_insert_new b.store a v with
        | error e => simp [hins] at he
        | ok q =>
          obtain ⟨i, store2⟩ := q
          simp only [hins, Prod.mk.injEq] at he
          obtain ⟨-, rfl⟩ := he
          obtain ⟨hfs, rfl⟩ := ShardedMap.try_insert_new_ok hins
          intro p hp
          rcases ShardedMap.mem_entriesOf_insertAt hp with h2 | h2
          · exact hpre p h2
          · subst h2
            exact Nat.le_of_not_lt hge

theorem minInv_burn {b : Balances} {a v r : Nat} {b2 : Balances}
    (hpre : b.MinInv) (he : burn b a v = (.ok r, b2)) : b2.MinInv := by
  unfold burn at he
  cases hget : ShardedMap.get b.store a with
  | none => simp [hget] at he
  | some p =>
    obtain ⟨idx, bal⟩ := p
    simp only [hget] at he
    cases htry : nzTrySub bal v with
    | ok remaining =>
      simp only [htry] at he
      split at he
      · rename_i hmin
        obtain ⟨-, rfl⟩ := burnFinish_ok he
        intro p hp
        rcases ShardedMap.mem_entriesOf_insertAt hp with h2 | h2
        · exact hpre p h2
        · subst h2
          exact hmin
      · cases hua : uCheckedAdd b.unused remaining with
        | none => simp [hua] at he
        | some unused2 =>
          simp only [hua] at he
          obtain ⟨-, rfl⟩ := burnFinish_ok he
          intro p hp
          exact hpre p ((ShardedMap.entriesOf_eraseAt_sublist _ _ _).subset hp)
    | error e =>
      cases e with
      | zero =>
        simp only [htry] at he
        obtain ⟨-, rfl⟩ := burnFinish_ok he
        intro p hp
        exact hpre p ((ShardedMap.entriesOf_eraseAt_sublist _ _ _).subset hp)
      | overflow => simp [htry] at he
      | underflow => simp [htry] at he

theorem minInv_burn_all {b : Balances} {a r : Nat} {b2 : Balances}
    (hpre : b.MinInv) (he : burn_all b a = (.ok r, b2)) : b2.MinInv := by
  unfold burn_all at he
  rw [ShardedMap.remove_eq] at he
  cases hget : ShardedMap.get b.store a with
  | none =>
    rw [hget, Prod.mk.injEq] at he
    obtain ⟨-, rfl⟩ := he
    exact hpre
  | some p =>
    obtain ⟨i, v⟩ := p
    rw [hget] at he
    simp only at he
    cases hs : uCheckedSub b.total v with
    | none => simp [hs] at he
    | some t =>
      rw [hs, Prod.mk.injEq] at he
      obtain ⟨-, rfl⟩ := he
      intro p hp
      exact hpre p ((ShardedMap.entriesOf_eraseAt_sublist _ _ _).subset hp)

theorem minInv_burn_unused {b : Balances} {r : Nat} {b2 : Balances}
    (hpre : b.MinInv) (he : burn_unused b = (.ok r, b2)) : b2.MinInv := by
  unfold burn_unused at he
  cases hs : uCheckedSub b.total b.unused with
  | none => simp [hs] at he
  | some t =>
    rw [hs, Prod.mk.injEq] at he
    obtain ⟨-, rfl⟩ := he
    exact hpre

theorem minInv_allocate_next_shard {b : Balances} {r : Bool} {b2 : Balances}
    (hpre : b.MinInv) (hlen : ∀ sh ∈ b.store, sh.entries.length ≤ sh.capacity)
    (he : allocate_next_shard b = (r, b2)) : b2.MinInv := by
  unfold allocate_next_shard at he
  cases hA : ShardedMap.alloc_next_shard b.store with
  | mk r2 st =>
    rw [hA, Prod.mk.injEq] at he
    obtain ⟨-, rfl⟩ := he
    have hst : st = (ShardedMap.allocAux b.store).2 := by
      have := ShardedMap.alloc_next_shard_snd b.store
      rw [hA] at this
      exact this
    obtain ⟨h1, -, -⟩ := ShardedMap.allocAux_spec hlen
    subst hst
    intro p hp
    dsimp only at hp
    rw [h1] at hp
    exact hpre p hp

theorem minInv_try_append_shard {b : Balances} {c r : Nat} {b2 : Balances}
    (hpre : b.MinInv) (he : try_append_shard b c = (.ok r, b2)) : b2.MinInv := by
  unfold try_append_shard at he
  cases hap : ShardedMap.try_append_shard b.store c with
  | error e => rw [hap] at he; exact absurd he (by simp)
  | ok st =>
    rw [hap, Prod.mk.injEq] at he
    obtain ⟨-, rfl⟩ := he
    have hst : st = b.store ++ [(⟨[], c, false⟩ : Shard Nat Nat)] := by
      unfold ShardedMap.try_append_shard at hap
      split at hap
      · exact (Except.ok.inj hap).symm
      · exact absurd hap (by simp)
    subst hst
    intro p hp
    dsimp only at hp
    rw [ShardedMap.entriesOf_append] at hp
    rcases List.mem_append.mp hp with h2 | h2
    · exact hpre p h2
    · simp [entriesOf] at h2

end Balances

namespace Balances

theorem minInv_transfer {tmax : Nat} {b : Balances} {fromA toA v r : Nat} {b2 : Balances}
    (hpre : b.MinInv) (he : transfer tmax b fromA toA v = (.ok r, b2)) : b2.MinInv := by
  unfold transfer at he
  by_cases h0 : toA = 0
  · rw [if_pos h0] at he
    exact minInv_burn hpre he
  · rw [if_neg h0] at he
    by_cases hft : fromA = toA
    · rw [if_pos hft, Prod.mk.injEq] at he
      obtain ⟨-, rfl⟩ := he
      exact hpre
    · rw [if_neg hft] at he
      cases hget : ShardedMap.get b.store fromA with
      | none => simp [hget] at he
      | some p =>
        obtain ⟨idx_from, bf⟩ := p
        simp only [hget] at he
        cases hfl : transferFromLeg b bf v with
        | error e => simp [hfl] at he
        | ok q =>
          obtain ⟨nbf, nu⟩ := q
          simp only [hfl] at he
          cases htl : transferToLeg tmax b toA v nbf.isSome with
          | error e => simp [htl] at he
          | ok q2 =>
            obtain ⟨store1, ibt⟩ := q2
            simp only [htl] at he
            rcases transferToLeg_ok htl with
              ⟨idx_to, bt, hgt, rfl, -, -, hminT, rfl⟩ |
              ⟨hgtn, rfl, rfl, hminv⟩
            · have hs1mem : ∀ p ∈ entriesOf
                  (ShardedMap.insertAt b.store idx_to toA (bt + v)),
                  b.minimum_balance ≤ p.2 := by
                intro p hp
                rcases ShardedMap.mem_entriesOf_insertAt hp with h2 | h2
                · exact hpre p h2
                · subst h2
                  exact hminT
              have hgf1 : ShardedMap.get
                  (ShardedMap.insertAt b.store idx_to toA (bt + v)) fromA =
                  some (idx_from, bf) := by
                rw [ShardedMap.get_insertAt_ne hft]
                exact hget
              rcases transferFromLeg_ok hfl with
                ⟨rfl, rfl, -, -, hminF⟩ | ⟨rfl, rfl, -, -, -, -⟩ | ⟨rfl, rfl, -⟩
              · unfold transferCommit at he
                have hga := ShardedMap.get_at_of_get hgf1
                simp only [hga, Option.getD_none, Prod.mk.injEq] at he
                obtain ⟨-, rfl⟩ := he
                intro p hp
                dsimp only at hp
                rcases ShardedMap.mem_entriesOf_insertAt hp with h2 | h2
                · exact hs1mem p h2
                · subst h2
                  exact hminF
              · unfold transferCommit at he
                simp only [Option.getD_some, Prod.mk.injEq] at he
                obtain ⟨-, rfl⟩ := he
                intro p hp
                dsimp only at hp
                exact hs1mem p ((ShardedMap.entriesOf_eraseAt_sublist _ _ _).subset hp)
              · unfold transferCommit at he
                simp only [Option.getD_none, Prod.mk.injEq] at he
                obtain ⟨-, rfl⟩ := he
                intro p hp
                dsimp only at hp
                exact hs1mem p ((ShardedMap.entriesOf_eraseAt_sublist _ _ _).subset hp)
            · rcases transferFromLeg_ok hfl with
                ⟨rfl, rfl, -, -, hminF⟩ | ⟨rfl, rfl, -, -, -, -⟩ | ⟨rfl, rfl, -⟩
              · unfold transferCommit at he
                have hga := ShardedMap.get_at_of_get hget
                simp only [hga] at he
                cases hins : ShardedMap.try_insert_new
                    (ShardedMap.insertAt b.store idx_from fromA (bf - v)) toA v with
                | error e => simp [hins] at he
                | ok q3 =>
                  obtain ⟨i2, store3⟩ := q3
                  simp only [hins, Option.getD_none, Prod.mk.injEq] at he
                  obtain ⟨-, rfl⟩ := he
                  obtain ⟨hfs, rfl⟩ := ShardedMap.try_insert_new_ok hins
                  intro p hp
                  dsimp only at hp
                  rcases ShardedMap.mem_entriesOf_insertAt hp with h2 | h2
                  · rcases ShardedMap.mem_entriesOf_insertAt h2 with h3 | h3
                    · exact hpre p h3
                    · subst h3
                      exact hminF
                  · subst h2
                    exact hminv
              · unfold transferCommit at he
                cases hins : ShardedMap.try_insert_new_at
                    (ShardedMap.eraseAt b.store idx_from fromA) idx_from toA v with
                | error e => simp [hins] at he
                | ok store3 =>
                  simp only [hins, Option.getD_some, Prod.mk.injEq] at he
                  obtain ⟨-, rfl⟩ := he
                  obtain ⟨sh0, hsh0, hsp, rfl⟩ := ShardedMap.try_insert_new_at_ok hins
                  intro p hp
                  dsimp only at hp
                  rcases ShardedMap.mem_entriesOf_insertAt hp with h2 | h2
                  · exact hpre p ((ShardedMap.entriesOf_eraseAt_sublist _ _ _).subset h2)
                  · subst h2
                    exact hminv
              · unfold transferCommit at he
                cases hins : ShardedMap.try_insert_new_at
                    (ShardedMap.eraseAt b.store idx_from fromA) idx_from toA v with
                | error e => simp [hins] at he
                | ok store3 =>
                  simp only [hins, Option.getD_none, Prod.mk.injEq] at he
                  obtain ⟨-, rfl⟩ := he
                  obtain ⟨sh0, hsh0, hsp, rfl⟩ := ShardedMap.try_insert_new_at_ok hins
                  intro p hp
                  dsimp only at hp
                  rcases ShardedMap.mem_entriesOf_insertAt hp with h2 | h2
                  · exact hpre p ((ShardedMap.entriesOf_eraseAt_sublist _ _ _).subset h2)
                  · subst h2
                    exact hminv

theorem minInv_transfer_all {tmax : Nat} {b : Balances} {fromA toA r : Nat} {b2 : Balances}
    (hpre : b.MinInv) (he : transfer_all tmax b fromA toA = (.ok r, b2)) : b2.MinInv := by
  unfold transfer_all at he
  cases hget : ShardedMap.get b.store fromA with
  | none =>
    simp only [hget, Prod.mk.injEq] at he
    obtain ⟨-, rfl⟩ := he
    exact hpre
  | some p =>
    obtain ⟨idx_from, bf⟩ := p
    simp only [hget] at he
    by_cases hft : fromA = toA
    · rw [if_pos hft, Prod.mk.injEq] at he
      obtain ⟨-, rfl⟩ := he
      exact hpre
    · rw [if_neg hft] at he
      cases hgt : ShardedMap.get b.store toA with
      | some p2 =>
        obtain ⟨idx_to, bt⟩ := p2
        simp only [hgt] at he
        cases htry : nzTryAdd tmax bt bf with
        | error e => simp [htry] at he
        | ok nb =>
          simp only [htry] at he
          obtain ⟨rfl, -, -⟩ := nzTryAdd_ok.mp htry
          split at he
          · rename_i hminT
            have hgf1 : ShardedMap.get
                (ShardedMap.insertAt b.store idx_to toA (bt + bf)) fromA =
                some (idx_from, bf) := by
              rw [ShardedMap.get_insertAt_ne hft]
              exact hget
            unfold transferAllCommit ShardedMap.remove_at at he
            have hga := ShardedMap.get_at_of_get hgf1
            simp only [hga, Prod.mk.injEq] at he
            obtain ⟨-, rfl⟩ := he
            intro p hp
            dsimp only at hp
            have h2 := (ShardedMap.entriesOf_eraseAt_sublist _ _ _).subset hp
            rcases ShardedMap.mem_entriesOf_insertAt h2 with h3 | h3
            · exact hpre p h3
            · subst h3
              exact hminT
          · simp at he
      | none =>
        simp only [hgt] at he
        split at he
        · simp at he
        · rename_i hminv
          unfold transferAllCommit ShardedMap.remove_at at he
          have hga := ShardedMap.get_at_of_get hget
          simp only [hga] at he
          cases hins : ShardedMap.try_insert_new_at
              (ShardedMap.eraseAt b.store idx_from fromA) idx_from toA bf with
          | error e => simp [hins] at he
          | ok store3 =>
            simp only [hins, Prod.mk.injEq] at he
            obtain ⟨-, rfl⟩ := he
            obtain ⟨sh0, hsh0, hsp, rfl⟩ := ShardedMap.try_insert_new_at_ok hins
            intro p hp
            dsimp only at hp
            rcases ShardedMap.mem_entriesOf_insertAt hp with h2 | h2
            · exact hpre p ((ShardedMap.entriesOf_eraseAt_sublist _ _ _).subset h2)
            · subst h2
              exact Nat.le_of_not_lt hminv

end Balances

/-- For states reachable without `set_minimum_balance`, every stored amount
is at least the minimum balance. -/
theorem reach_min_inv {tmax : Nat} {b : Balances}
    (h : Reach tmax false b) : b.MinInv := by
  induction h with
  | init caps minB b he => exact Balances.minInv_try_new he
  | mint b a v r b2 hr ha hv he ih => exact Balances.minInv_mint ih he
  | burn b a v r b2 hr ha hv he ih => exact Balances.minInv_burn ih he
  | burn_all b a r b2 hr ha he ih => exact Balances.minInv_burn_all ih he
  | burn_unused b r b2 hr he ih => exact Balances.minInv_burn_unused ih he
  | transfer b fromA toA v r b2 hr ha hv he ih => exact Balances.minInv_transfer ih he
  | transfer_all b fromA toA r b2 hr ha hv he ih =>
    exact Balances.minInv_transfer_all ih he
  | alloc b r b2 hr he ih =>
    exact Balances.minInv_allocate_next_shard ih (reach_wf hr).2.1 he
  | append b c r b2 hr he ih => exact Balances.minInv_try_append_shard ih he
  | set_min b m hall hr ih => exact absurd hall (by simp)

/-- The allowance-store invariant of C7: every stored entry has
`owner ≠ spender` and a non-zero amount; the hashbrown length bound is
carried along because `allocate_next_shard` needs it. -/
def Allowances.AInv (a : Allowances) : Prop :=
  (∀ p ∈ entriesOf a.store, p.1.1 ≠ p.1.2 ∧ 0 < p.2.1) ∧
  (∀ sh ∈ a.store, sh.entries.length ≤ sh.capacity)

namespace Allowances

theorem aInv_try_new {caps : List Nat} {p : Nat} {a : Allowances}
    (he : try_new caps p = .ok a) : a.AInv := by
  unfold try_new at he
  cases hm : ShardedMap.try_new (K := Nat × Nat) (V := Nat × Nat) caps with
  | error e => simp [hm] at he
  | ok store =>
    simp only [hm] at he
    obtain rfl : _ = a := by injection he
    have hsh := ShardedMap.try_new_ok_shape hm
    constructor
    · intro q hq
      rw [ShardedMap.entriesOf_eq_nil fun s hs => (hsh s hs).1] at hq
      exact absurd hq (List.not_mem_nil q)
    · intro sh hs
      rw [(hsh sh hs).1]
      exact Nat.zero_le _

theorem aInv_set {s : Allowances} {owner spender v bn : Nat} {r : Option Nat}
    {s2 : Allowances} (hpre : s.AInv)
    (he : Allowances.set s owner spender v bn = (.ok r, s2)) : s2.AInv := by
  unfold Allowances.set at he
  by_cases ho : owner = spender
  · rw [if_pos ho, Prod.mk.injEq] at he
    obtain ⟨-, rfl⟩ := he
    exact hpre
  · rw [if_neg ho] at he
    by_cases hv : v ≠ 0
    · rw [if_pos hv] at he
      cases hti : ShardedMap.try_insert s.store (owner, spender) (v, s.expiry bn) with
      | error e => simp [hti] at he
      | ok q =>
        obtain ⟨i, prev, store2⟩ := q
        simp only [hti, Prod.mk.injEq] at he
        obtain ⟨-, rfl⟩ := he
        obtain ⟨rfl, hcase⟩ := ShardedMap.try_insert_ok hti
        constructor
        · intro q hq
          rcases ShardedMap.mem_entriesOf_insertAt hq with h2 | h2
          · exact hpre.1 q h2
          · subst h2
            exact ⟨ho, Nat.pos_of_ne_zero hv⟩
        · rcases hcase with ⟨old, -, hget⟩ | ⟨-, -, hfs⟩
          · exact ShardedMap.lenOK_insertAt_found _ hget hpre.2
          · obtain ⟨sh0, hsh0, hsp⟩ := ShardedMap.firstSpace_some hfs
            exact ShardedMap.lenOK_insertAt_space hsh0 hsp hpre.2
    · rw [if_neg hv] at he
      rw [ShardedMap.remove_eq] at he
      cases hget : ShardedMap.get s.store (owner, spender) with
      | none =>
        simp only [hget, Prod.mk.injEq] at he
        obtain ⟨-, rfl⟩ := he
        exact hpre
      | some q =>
        simp only [hget, Prod.mk.injEq] at he
        obtain ⟨-, rfl⟩ := he
        constructor
        · intro q2 hq2
          exact hpre.1 q2
            ((ShardedMap.entriesOf_eraseAt_sublist _ _ _).subset hq2)
        · exact ShardedMap.lenOK_eraseAt hpre.2

theorem aInv_decrease {amax : Nat} {s : Allowances} {owner spender v bn : Nat}
    {r : Option Nat} {s2 : Allowances} (hpre : s.AInv)
    (he : decrease amax s owner spender v bn = (.ok r, s2)) : s2.AInv := by
  unfold decrease at he
  by_cases ho : owner = spender
  · rw [if_pos ho, Prod.mk.injEq] at he
    obtain ⟨-, rfl⟩ := he
    exact hpre
  · rw [if_neg ho] at he
    cases hget : ShardedMap.get s.store (owner, spender) with
    | none => simp [hget] at he
    | some q =>
      obtain ⟨idx, allowance, exp0⟩ := q
      simp only [hget] at he
      have hmem := ShardedMap.mem_entriesOf_of_get hget
      by_cases hmax : allowance = amax
      · rw [if_pos hmax, Prod.mk.injEq] at he
        obtain ⟨-, rfl⟩ := he
        constructor
        · intro q2 hq2
          rcases ShardedMap.mem_entriesOf_insertAt hq2 with h2 | h2
          · exact hpre.1 q2 h2
          · subst h2
            exact ⟨ho, (hpre.1 _ hmem).2⟩
        · exact ShardedMap.lenOK_insertAt_found _ hget hpre.2
      · rw [if_neg hmax] at he
        cases hsub : nzTrySub allowance v with
        | ok na =>
          simp only [hsub, Prod.mk.injEq] at he
          obtain ⟨-, rfl⟩ := he
          obtain ⟨-, rfl, hnz⟩ := nzTrySub_ok.mp hsub
          constructor
          · intro q2 hq2
            rcases ShardedMap.mem_entriesOf_insertAt hq2 with h2 | h2
            · exact hpre.1 q2 h2
            · subst h2
              exact ⟨ho, Nat.pos_of_ne_zero hnz⟩
          · exact ShardedMap.lenOK_insertAt_found _ hget hpre.2
        | error e =>
          cases e with
          | underflow => simp [hsub] at he
          | overflow => simp [hsub] at he
          | zero =>
            simp only [hsub, Prod.mk.injEq] at he
            obtain ⟨-, rfl⟩ := he
            constructor
            · intro q2 hq2
              exact hpre.1 q2
                ((ShardedMap.entriesOf_eraseAt_sublist _ _ _).subset hq2)
            · exact ShardedMap.lenOK_eraseAt hpre.2

theorem aInv_remove {s : Allowances} {owner spender : Nat}
    {r : Option (Nat × Nat)} {s2 : Allowances} (hpre : s.AInv)
    (he : Allowances.remove s owner spender = (r, s2)) : s2.AInv := by
  unfold Allowances.remove at he
  rw [ShardedMap.remove_eq] at he
  cases hget : ShardedMap.get s.store (owner, spender) with
  | none =>
    simp only [hget, Prod.mk.injEq] at he
    obtain ⟨-, rfl⟩ := he
    exact hpre
  | some q =>
    simp only [hget, Prod.mk.injEq] at he
    obtain ⟨-, rfl⟩ := he
    constructor
    · intro q2 hq2
      exact hpre.1 q2 ((ShardedMap.entriesOf_eraseAt_sublist _ _ _).subset hq2)
    · exact ShardedMap.lenOK_eraseAt hpre.2

theorem aInv_allocate_next_shard {s : Allowances} {r : Bool} {s2 : Allowances}
    (hpre : s.AInv) (he : allocate_next_shard s = (r, s2)) : s2.AInv := by
  unfold allocate_next_shard at he
  obtain ⟨hent, hlen2, -⟩ := ShardedMap.allocAux_spec (m := s.store) hpre.2
  cases hA : ShardedMap.allocAux s.store with
  | mk ro st =>
    simp only [hA, Prod.mk.injEq, ShardedMap.alloc_next_shard_snd] at he hent hlen2
    obtain ⟨-, rfl⟩ := he
    constructor
    · intro q hq
      rw [show ({ s with store := st } : Allowances).store = st from rfl, hent] at hq
      exact hpre.1 q hq
    · exact hlen2

theorem aInv_try_append_shard {s : Allowances} {c : Nat} {r : Option Nat}
    {s2 : Allowances} (hpre : s.AInv)
    (he : try_append_shard s c = (.ok r, s2)) : s2.AInv := by
  unfold try_append_shard at he
  cases hap : ShardedMap.try_append_shard s.store c with
  | error e => simp [hap] at he
  | ok st =>
    simp only [hap, Prod.mk.injEq] at he
    obtain ⟨-, rfl⟩ := he
    have hst : st = s.store ++ [⟨[], c, false⟩] := by
      unfold ShardedMap.try_append_shard at hap
      split at hap
      · exact (Except.ok.inj hap).symm
      · exact absurd hap (by simp)
    subst hst
    constructor
    · intro q hq
      rw [show ({ s with store := s.store ++ [⟨[], c, false⟩] } : Allowances).store =
          s.store ++ [⟨[], c, false⟩] from rfl,
        ShardedMap.entriesOf_append] at hq
      rcases List.mem_append.mp hq with h2 | h2
      · exact hpre.1 q h2
      · simp [entriesOf] at h2
    · intro sh hsh
      rcases List.mem_append.mp hsh with h2 | h2
      · exact hpre.2 sh h2
      · simp at h2
        rw [h2]
        exact Nat.zero_le _

end Allowances

/-- Every reachable `Allowances` state satisfies the entry invariant. -/
theorem areach_inv {amax : Nat} {a : Allowances} (h : AReach amax a) : a.AInv := by
  induction h with
  | init caps p a he => exact Allowances.aInv_try_new he
  | set a owner spender v bn r a2 hr ho hs hv he ih => exact Allowances.aInv_set ih he
  | decrease a owner spender v bn r a2 hr ho hs hv hb he ih =>
    exact Allowances.aInv_decrease ih he
  | remove a owner spender r a2 hr he ih => exact Allowances.aInv_remove ih he
  | alloc a r a2 hr he ih => exact Allowances.aInv_allocate_next_shard ih he
  | append a c r a2 hr he ih => exact Allowances.aInv_try_append_shard ih he
  | set_expiry a p hr ih => exact ih

/-- Concrete states for the C7 run: fresh map, after shard allocation,
after minting 5 to account 1, and an allowances run storing one entry. -/
def bw1 : Balances := ⟨0, [⟨[], 7, false⟩], 0, 0⟩

def bw2 : Balances := ⟨0, [⟨[], 7, true⟩], 0, 0⟩

def bw3 : Balances := ⟨0, [⟨[(1, 5)], 7, true⟩], 5, 0⟩

def aw1 : Allowances := ⟨5, [⟨[], 7, false⟩]⟩

def aw2 : Allowances := ⟨5, [⟨[], 7, true⟩]⟩

def aw3 : Allowances := ⟨5, [⟨[((1, 2), (4, 5))], 7, true⟩]⟩

/-- C7 (counterexample to the balances half as stated): `set_minimum_balance`
is a public operation and does not touch stored entries, so raising the
minimum to 10 over a reachable state holding the entry `(1, 5)` yields a
reachable state with a stored amount below the minimum balance. -/
theorem C7_counterexample :
    ∃ b : Balances, Reach 100 true b ∧
      ∃ p ∈ entriesOf b.store, p.2 < b.minimum_balance := by
  refine ⟨Balances.set_minimum_balance bw3 10, Reach.set_min bw3 10 rfl ?_,
    (1, 5), by decide, by decide⟩
  exact Reach.mint bw2 1 5 0 bw3
    (Reach.alloc bw1 false bw2 (Reach.init [7] 0 bw1 (by decide)) (by decide))
    (by decide) (by decide) (by decide)

/-- C7 (amended): in every `Balances` state reachable without
`set_minimum_balance` every stored amount is at least the minimum balance,
and in every reachable `Allowances` state every stored entry has
`owner ≠ spender` and a non-zero amount. -/
theorem C7_amended {tmax amax : Nat} {b : Balances} {a : Allowances}
    (hb : Reach tmax false b) (ha : AReach amax a) :
    (∀ p ∈ entriesOf b.store, b.minimum_balance ≤ p.2) ∧
    (∀ p ∈ entriesOf a.store, p.1.1 ≠ p.1.2 ∧ 0 < p.2.1) :=
  ⟨reach_min_inv hb, (areach_inv ha).1⟩

theorem C7_amended_witness :
    (∀ p ∈ entriesOf bw3.store, bw3.minimum_balance ≤ p.2) ∧
    (∀ p ∈ entriesOf aw3.store, p.1.1 ≠ p.1.2 ∧ 0 < p.2.1) :=
  C7_amended
    (Reach.mint bw2 1 5 0 bw3
      (Reach.alloc bw1 false bw2 (@Reach.init 100 false [7] 0 bw1 (by decide))
        (by decide))
      (by decide) (by decide) (by decide))
    (AReach.set aw2 1 2 4 0 none aw3
      (AReach.alloc aw1 false aw2 (@AReach.init 100 [7] 5 aw1 (by decide))
        (by decide))
      (by decide) (by decide) (by decide) (by decide))

/-! ## C4: characterizing `is_valid_capacity` -/

namespace ShardedMap

/-- The highest bit of a nonzero number is set. -/
theorem testBit_log2 {n : Nat} (h : n ≠ 0) : n.testBit (Nat.log2 n) = true := by
  rw [Nat.testBit_to_div_mod]
  have h1 := Nat.log2_self_le h
  have h2 := Nat.lt_log2_self (n := n)
  have hd : n / 2 ^ Nat.log2 n = 1 := by
    refine Nat.div_eq_of_lt_le (by omega) ?_
    rw [pow_succ] at h2
    omega
  rw [hd]
  rfl

/-- `2^k - 1` and `2^k` have disjoint bits. -/
theorem land_two_pow_sub_one_self (k : Nat) : (2 ^ k - 1) &&& 2 ^ k = 0 := by
  apply Nat.eq_of_testBit_eq
  intro i
  simp only [Nat.testBit_land, Nat.testBit_two_pow_sub_one, Nat.testBit_two_pow,
    Nat.zero_testBit, Bool.and_eq_false_iff, decide_eq_false_iff_not]
  omega

/-- Converse: a number with bits disjoint from its successor is a low run of
ones. -/
theorem land_succ_eq_zero : ∀ m : Nat, m &&& (m + 1) = 0 → ∃ k, m = 2 ^ k - 1 := by
  intro m
  induction m using Nat.strong_induction_on with
  | _ m ih =>
    intro h
    rcases Nat.eq_zero_or_pos m with rfl | hm
    · exact ⟨0, rfl⟩
    · have hb : ∀ i, m.testBit i = true → (m + 1).testBit i = true → False := by
        intro i h1 h2
        have ht := congrArg (fun x => Nat.testBit x i) h
        simp [Nat.testBit_land, h1, h2] at ht
      have hodd : m % 2 = 1 := by
        by_contra hev
        have hm2 : m / 2 ≠ 0 := by omega
        have hbit := testBit_log2 hm2
        have h1 : m.testBit (Nat.log2 (m / 2) + 1) = true := by
          rw [Nat.testBit_add_one]
          exact hbit
        have h2 : (m + 1).testBit (Nat.log2 (m / 2) + 1) = true := by
          rw [Nat.testBit_add_one]
          have h12 : (m + 1) / 2 = m / 2 := by omega
          rw [h12]
          exact hbit
        exact hb _ h1 h2
      have hhalf : (m / 2) &&& (m / 2 + 1) = 0 := by
        apply Nat.eq_of_testBit_eq
        intro i
        have h12 : (m + 1) / 2 = m / 2 + 1 := by omega
        have ht := congrArg (fun x => Nat.testBit x (i + 1)) h
        simp only [Nat.testBit_land] at ht
        simp only [Nat.testBit_add_one, h12, Nat.zero_div, Nat.zero_testBit] at ht
        simp only [Nat.testBit_land, Nat.zero_testBit]
        exact ht
      obtain ⟨k, hk⟩ := ih (m / 2) (by omega) hhalf
      refine ⟨k + 1, ?_⟩
      have h2k : 1 ≤ 2 ^ k := Nat.one_le_two_pow
      have hsplit : m = 2 * (m / 2) + 1 := by omega
      rw [hsplit, hk, pow_succ]
      omega

/-- `trailing_zeros` of a nonzero number: the number is its odd part shifted. -/
theorem tzAux_spec : ∀ fuel n : Nat, n ≠ 0 → n ≤ fuel →
    (n / 2 ^ tzAux fuel n) % 2 = 1 ∧ n = n / 2 ^ tzAux fuel n * 2 ^ tzAux fuel n := by
  intro fuel
  induction fuel with
  | zero => intro n h0 hle; omega
  | succ fuel ih =>
    intro n h0 hle
    by_cases hodd : n % 2 = 1
    · have htz : tzAux (fuel + 1) n = 0 := by
        rw [show tzAux (fuel + 1) n =
            if n = 0 then 0 else if n % 2 = 1 then 0 else tzAux fuel (n / 2) + 1 from rfl,
          if_neg h0, if_pos hodd]
      rw [htz, pow_zero, Nat.div_one, Nat.mul_one]
      exact ⟨hodd, rfl⟩
    · have hev : n % 2 = 0 := by omega
      have h2 : n / 2 ≠ 0 := by omega
      have hle2 : n / 2 ≤ fuel := by omega
      obtain ⟨ih1, ih2⟩ := ih (n / 2) h2 hle2
      have htz : tzAux (fuel + 1) n = tzAux fuel (n / 2) + 1 := by
        rw [show tzAux (fuel + 1) n =
            if n = 0 then 0 else if n % 2 = 1 then 0 else tzAux fuel (n / 2) + 1 from rfl,
          if_neg h0, if_neg hodd]
      rw [htz]
      have hdiv : n / 2 ^ (tzAux fuel (n / 2) + 1) = n / 2 / 2 ^ tzAux fuel (n / 2) := by
        rw [pow_succ', Nat.div_div_eq_div_mul]
      rw [hdiv]
      refine ⟨ih1, ?_⟩
      have hsplit : n = 2 * (n / 2) := by omega
      calc n = 2 * (n / 2) := hsplit
        _ = 2 * (n / 2 / 2 ^ tzAux fuel (n / 2) * 2 ^ tzAux fuel (n / 2)) := by rw [← ih2]
        _ = n / 2 / 2 ^ tzAux fuel (n / 2) * 2 ^ (tzAux fuel (n / 2) + 1) := by
            rw [pow_succ']; ring

theorem trailing_zeros_spec {n : Nat} (h : n ≠ 0) :
    (n / 2 ^ trailing_zeros n) % 2 = 1 ∧
    n = n / 2 ^ trailing_zeros n * 2 ^ trailing_zeros n :=
  tzAux_spec n n h le_rfl

/-- `trailing_ones` of a low run of `k` ones is `k`. -/
theorem toAux_two_pow_sub_one : ∀ fuel k : Nat, k ≤ fuel → toAux fuel (2 ^ k - 1) = k := by
  intro fuel
  induction fuel with
  | zero =>
    intro k hk
    obtain rfl : k = 0 := by omega
    rfl
  | succ fuel ih =>
    intro k hk
    cases k with
    | zero =>
      unfold toAux
      norm_num
    | succ k =>
      have h2k : 1 ≤ 2 ^ k := Nat.one_le_two_pow
      have hpow : 2 ^ (k + 1) = 2 * 2 ^ k := by rw [pow_succ']
      have hodd : (2 ^ (k + 1) - 1) % 2 = 1 := by omega
      have hhalf : (2 ^ (k + 1) - 1) / 2 = 2 ^ k - 1 := by omega
      unfold toAux
      rw [if_pos hodd, hhalf, ih k (by omega)]

theorem trailing_ones_two_pow_sub_one (k : Nat) : trailing_ones (2 ^ k - 1) = k := by
  cases k with
  | zero => rfl
  | succ k =>
    have h := Nat.lt_two_pow (k + 1)
    exact toAux_two_pow_sub_one (2 ^ (k + 1) - 1) (k + 1) (by omega)

/-- Uniqueness of the odd-part decomposition, one direction. -/
theorem odd_part_unique_le {c m s t : Nat} (hst : s ≤ t) (hc : c % 2 = 1)
    (h : c * 2 ^ s = m * 2 ^ t) : s = t ∧ c = m := by
  have h2 : (2 : Nat) ^ t = 2 ^ (t - s) * 2 ^ s := by
    rw [← pow_add]
    congr 1
    omega
  rw [h2, ← mul_assoc] at h
  have hcan : c = m * 2 ^ (t - s) :=
    Nat.eq_of_mul_eq_mul_right (Nat.pos_pow_of_pos s (by omega)) h
  rcases Nat.eq_zero_or_pos (t - s) with hz | hpos
  · refine ⟨by omega, ?_⟩
    rw [hcan, hz, pow_zero, mul_one]
  · exfalso
    obtain ⟨u, hu⟩ : ∃ u, t - s = u + 1 := ⟨t - s - 1, by omega⟩
    have hc2 : c = m * 2 ^ u * 2 := by
      rw [hcan, hu, pow_succ, mul_assoc]
    omega

theorem odd_part_unique {c m s t : Nat} (hc : c % 2 = 1) (hm : m % 2 = 1)
    (h : c * 2 ^ s = m * 2 ^ t) : s = t ∧ c = m := by
  rcases Nat.le_total s t with hst | hts
  · exact odd_part_unique_le hst hc h
  · obtain ⟨h1, h2⟩ := odd_part_unique_le hts hm h.symm
    exact ⟨h1.symm, h2.symm⟩

end ShardedMap

/-- The capacity class actually accepted by `is_valid_capacity`: a run of
`k ≥ 1` consecutive set bits shifted left by `s`, where either the run
reaches bit 0 (`s = 0`) or it has length at least 3; `usize::MAX`
(64 set bits) is excluded, and `n = 0` is impossible since `k ≥ 1`. -/
def validCapacityClass (n : Nat) : Prop :=
  (∃ k s, 1 ≤ k ∧ (s = 0 ∨ 3 ≤ k) ∧ n = (2 ^ k - 1) * 2 ^ s) ∧
  n ≠ ShardedMap.USIZE_MAX

/-- The capacity class in the claim's words: a single set bit, or a
contiguous run of at least three set low bits optionally shifted left,
with `0` and the all-ones value excluded. -/
def specCapacityClass (n : Nat) : Prop :=
  ((∃ j, n = 2 ^ j) ∨ (∃ k s, 3 ≤ k ∧ n = (2 ^ k - 1) * 2 ^ s)) ∧
  n ≠ 0 ∧ n ≠ ShardedMap.USIZE_MAX

namespace ShardedMap

theorem is_valid_capacity_true {n : Nat} (h : is_valid_capacity n = true) :
    n ≠ 0 ∧ n ≠ USIZE_MAX ∧
    (n / 2 ^ trailing_zeros n) &&& (n / 2 ^ trailing_zeros n + 1) = 0 ∧
    (trailing_zeros n = 0 ∨ 3 ≤ trailing_ones (n / 2 ^ trailing_zeros n)) := by
  unfold is_valid_capacity at h
  simp only [Nat.shiftRight_eq_div_pow] at h
  by_cases h0 : n = 0
  · simp [h0] at h
  by_cases hM : n = USIZE_MAX
  · simp [h0, hM] at h
  refine ⟨h0, hM, ?_⟩
  rw [if_neg (by simp [h0, hM])] at h
  split at h
  · exact absurd h (by simp)
  · rename_i hc
    refine ⟨by simpa using hc, by simpa using h⟩

theorem is_valid_capacity_of {n : Nat} (h0 : n ≠ 0) (hM : n ≠ USIZE_MAX)
    (hland : (n / 2 ^ trailing_zeros n) &&& (n / 2 ^ trailing_zeros n + 1) = 0)
    (hcond : trailing_zeros n = 0 ∨ 3 ≤ trailing_ones (n / 2 ^ trailing_zeros n)) :
    is_valid_capacity n = true := by
  unfold is_valid_capacity
  simp only [Nat.shiftRight_eq_div_pow]
  rw [if_neg (by simp [h0, hM]), if_neg (by simp [hland])]
  simpa using hcond

/-- The exact class of capacities accepted by `is_valid_capacity`. -/
theorem is_valid_capacity_iff {n : Nat} :
    is_valid_capacity n = true ↔ validCapacityClass n := by
  constructor
  · intro h
    obtain ⟨h0, hM, hland, hcond⟩ := is_valid_capacity_true h
    obtain ⟨hodd, hdecomp⟩ := trailing_zeros_spec h0
    obtain ⟨k, hk⟩ := land_succ_eq_zero _ hland
    have hk1 : 1 ≤ k := by
      rcases Nat.eq_zero_or_pos k with rfl | hp
      · rw [hk] at hodd
        simp at hodd
      · exact hp
    refine ⟨⟨k, trailing_zeros n, hk1, ?_, by rw [← hk]; exact hdecomp⟩, hM⟩
    rcases hcond with hz | h3
    · exact Or.inl hz
    · rw [hk, trailing_ones_two_pow_sub_one] at h3
      exact Or.inr h3
  · rintro ⟨⟨k, s, hk1, hks, rfl⟩, hM⟩
    have h2k : 2 ≤ 2 ^ k := by
      calc (2 : Nat) = 2 ^ 1 := (pow_one 2).symm
        _ ≤ 2 ^ k := Nat.pow_le_pow_right (by omega) hk1
    have h2s : 1 ≤ 2 ^ s := Nat.one_le_two_pow
    have h0 : (2 ^ k - 1) * 2 ^ s ≠ 0 := by
      have := Nat.mul_le_mul (show 1 ≤ 2 ^ k - 1 by omega) h2s
      omega
    obtain ⟨hodd, hdecomp⟩ := trailing_zeros_spec h0
    have hoddc : (2 ^ k - 1) % 2 = 1 := by
      have hpow : 2 ^ k = 2 * 2 ^ (k - 1) := by
        rw [← pow_succ']
        congr 1
        omega
      omega
    obtain ⟨hst, hcm⟩ := odd_part_unique hoddc hodd hdecomp
    refine is_valid_capacity_of h0 hM ?_ ?_
    · rw [← hcm]
      have hsucc : 2 ^ k - 1 + 1 = 2 ^ k := by omega
      rw [hsucc]
      exact land_two_pow_sub_one_self k
    · rw [← hcm, trailing_ones_two_pow_sub_one, ← hst]
      exact hks

end ShardedMap

/-- C4 (counterexample): capacity 2 is a single set bit, so the claim's
class accepts it, but `is_valid_capacity` rejects it (`2 = 0b10` is a
shifted run of length 1 < 3); conversely `3 = 0b11` is neither a single
set bit nor a run of three, yet `try_new` accepts it. -/
theorem C4_counterexample :
    specCapacityClass 2 ∧
    ShardedMap.try_new (K := Nat) (V := Nat) [2] = .error .invalidCapacity ∧
    ¬ specCapacityClass 3 ∧
    ShardedMap.try_new (K := Nat) (V := Nat) [3] = .ok [⟨[], 3, false⟩] := by
  refine ⟨⟨Or.inl ⟨1, by norm_num⟩, by decide, by decide⟩, by decide, ?_, by decide⟩
  rintro ⟨⟨j, hj⟩ | ⟨k, s, hk, hn⟩, -, -⟩
  · rcases j with - | - | j
    · simp at hj
    · simp at hj
    · have h1 : (1 : Nat) ≤ 2 ^ j := Nat.one_le_two_pow
      have h2 : (2 : Nat) ^ (j + 1 + 1) = 2 ^ j * 4 := by ring
      omega
  · have h1 : (8 : Nat) ≤ 2 ^ k :=
      calc (8 : Nat) = 2 ^ 3 := by norm_num
        _ ≤ 2 ^ k := Nat.pow_le_pow_right (by omega) hk
    have h2 : (1 : Nat) ≤ 2 ^ s := Nat.one_le_two_pow
    have h3 : 7 * 1 ≤ (2 ^ k - 1) * 2 ^ s :=
      Nat.mul_le_mul (by omega) h2
    omega

/-- C4 (amended): `try_new` succeeds iff every capacity is a shifted run of
`k ≥ 1` consecutive set bits with `s = 0` or `k ≥ 3` (all-ones excluded),
and otherwise fails with `InvalidCapacity`; `try_append_shard` applies the
same rule to its single capacity. -/
theorem C4_amended (caps : List Nat) (m : SMap Nat Nat) (c : Nat) :
    ((∃ m2 : SMap Nat Nat, ShardedMap.try_new caps = .ok m2) ↔
      ∀ n ∈ caps, validCapacityClass n) ∧
    ((∃ m2 : SMap Nat Nat, ShardedMap.try_new caps = .ok m2) ∨
      ShardedMap.try_new (K := Nat) (V := Nat) caps = .error .invalidCapacity) ∧
    ((∃ m2, ShardedMap.try_append_shard m c = .ok m2) ↔ validCapacityClass c) ∧
    ((∃ m2, ShardedMap.try_append_shard m c = .ok m2) ∨
      ShardedMap.try_append_shard m c = .error .invalidCapacity) := by
  unfold ShardedMap.try_new ShardedMap.try_append_shard
  by_cases hall : caps.all ShardedMap.is_valid_capacity
  · by_cases hc : ShardedMap.is_valid_capacity c
    · rw [if_pos hall, if_pos hc]
      refine ⟨⟨fun _ => ?_, fun _ => ⟨_, rfl⟩⟩, Or.inl ⟨_, rfl⟩,
        ⟨fun _ => ShardedMap.is_valid_capacity_iff.mp hc, fun _ => ⟨_, rfl⟩⟩,
        Or.inl ⟨_, rfl⟩⟩
      intro n hn
      exact ShardedMap.is_valid_capacity_iff.mp (List.all_eq_true.mp hall n hn)
    · rw [if_pos hall, if_neg hc]
      refine ⟨⟨fun _ => ?_, fun _ => ⟨_, rfl⟩⟩, Or.inl ⟨_, rfl⟩,
        ⟨fun ⟨m2, hm2⟩ => absurd hm2 (by simp),
         fun hcl => absurd (ShardedMap.is_valid_capacity_iff.mpr hcl) hc⟩,
        Or.inr rfl⟩
      intro n hn
      exact ShardedMap.is_valid_capacity_iff.mp (List.all_eq_true.mp hall n hn)
  · by_cases hc : ShardedMap.is_valid_capacity c
    · rw [if_neg hall, if_pos hc]
      refine ⟨⟨fun ⟨m2, hm2⟩ => absurd hm2 (by simp), fun hcl => absurd ?_ hall⟩,
        Or.inr rfl,
        ⟨fun _ => ShardedMap.is_valid_capacity_iff.mp hc, fun _ => ⟨_, rfl⟩⟩,
        Or.inl ⟨_, rfl⟩⟩
      rw [List.all_eq_true]
      intro n hn
      exact ShardedMap.is_valid_capacity_iff.mpr (hcl n hn)
    · rw [if_neg hall, if_neg hc]
      refine ⟨⟨fun ⟨m2, hm2⟩ => absurd hm2 (by simp), fun hcl => absurd ?_ hall⟩,
        Or.inr rfl,
        ⟨fun ⟨m2, hm2⟩ => absurd hm2 (by simp),
         fun hcl => absurd (ShardedMap.is_valid_capacity_iff.mpr hcl) hc⟩,
        Or.inr rfl⟩
      rw [List.all_eq_true]
      intro n hn
      exact ShardedMap.is_valid_capacity_iff.mpr (hcl n hn)
